import Mathlib

/-!
Verification of the CookTube multi-signal timeline fusion core.

The definitions below are a shallow embedding of the TypeScript sources:
  - cooktube-api/src/lib/timeline-integrator.ts (TimelineIntegrator)
  - the frame analyzer (FrameAnalyzer: extractIngredients / extractTools /
    inferCookingActions and their helpers)
  - cooktube-api/src/lib/recipe-processor.ts (RecipeProcessorService:
    mergeAudioVisualIngredients / integrateCookingSteps / isRelatedAction)

JS numbers are embedded as rationals (ℚ); all operations the code performs on
them (comparison, subtraction, averaging, rounding) are exact on the inputs of
interest.  JS strings are Lean strings; `String.prototype.includes` is embedded
as `strContains` below; `toLowerCase` is embedded as `strToLower` (the
names occurring in the keyword tables are ASCII, where the two agree).
JS `Map` / `Set` (insertion ordered) are embedded as association lists /
duplicate-free lists.  `Array.prototype.sort` (stable since ES2019) is embedded
as `List.insertionSort`, which is stable.
-/

set_option allowUnsafeReducibility true

attribute [semireducible] Rat.add Rat.sub Rat.mul Rat.inv Rat.div Rat.ofScientific

namespace CookTube

/-- Does the character list start with the given pattern? -/
def listStarts : List Char → List Char → Bool
  | _, [] => true
  | [], _ :: _ => false
  | a :: as, b :: bs => a == b && listStarts as bs

/-- Does the character list contain the given pattern as a contiguous run? -/
def listHasSeq : List Char → List Char → Bool
  | [], pat => pat.isEmpty
  | a :: as, pat => listStarts (a :: as) pat || listHasSeq as pat

/-- Embedding of JS `s.includes(pat)`: substring containment
(true for the empty pattern, as in JS). -/
def strContains (s pat : String) : Bool :=
  listHasSeq s.data pat.data

example : strContains "cutting board" "board" = true := by decide
example : strContains "pan" "knife" = false := by decide
example : strContains "pan" "" = true := by decide

/-- Embedding of JS `toLowerCase` (character-wise; the keyword tables the code
matches against are ASCII, where this agrees with JS).  Implemented on the
character list so that it evaluates by kernel reduction. -/
def strToLower (s : String) : String :=
  ⟨s.data.map Char.toLower⟩

/-- Embedding of JS `trim`: strip leading and trailing whitespace. -/
def strTrim (s : String) : String :=
  ⟨((s.data.dropWhile Char.isWhitespace).reverse.dropWhile Char.isWhitespace).reverse⟩

example : strToLower "Cutting Board" = "cutting board" := by decide
example : strTrim "  tomato " = "tomato" := by decide

/-- Embedding of JS `Math.round` (round half towards positive infinity). -/
def jsRound (q : ℚ) : ℤ := ⌊q + 1 / 2⌋

/-! ## Data model of the frame analyzer results
(interfaces of frame-analyzer / timeline-integrator.ts) -/

/-- `Ingredient` interface: `{name, confidence, boundingBox?, category?}`.
The `boundingBox` field is opaque pass-through metadata never read by the
fusion logic and is omitted from the embedding.  `category` is always set by
the code paths embedded here, so it is a plain `String`. -/
structure Ingredient where
  name : String
  confidence : ℚ
  category : String
deriving DecidableEq, Repr

/-- `Tool` interface: `{name, confidence, boundingBox?, type?}` (boundingBox
omitted as above). -/
structure Tool where
  name : String
  confidence : ℚ
  type : String
deriving DecidableEq, Repr

/-- The source stores in `CookingAction.relatedIngredients` either plain name
strings (from `findRelatedIngredients`) or full `Ingredient` records (from
`inferActionsFromContext` / `detectAdditionalActions`); this sum represents
both shapes. -/
inductive IngredientRef where
  | byName (name : String)
  | byRecord (ing : Ingredient)
deriving DecidableEq, Repr

/-- Same for `CookingAction.relatedTools`. -/
inductive ToolRef where
  | byName (name : String)
  | byRecord (tool : Tool)
deriving DecidableEq, Repr

/-- `CookingAction` interface. -/
structure CookingAction where
  action : String
  confidence : ℚ
  relatedIngredients : List IngredientRef
  relatedTools : List ToolRef
deriving DecidableEq, Repr

/-- `FrameAnalysisResult` interface (the `confidenceScores` summary field is
computed from the other three lists and never read by the integrator; it is
omitted). -/
structure FrameAnalysisResult where
  frameNumber : ℕ
  timestamp : ℚ
  detectedIngredients : List Ingredient
  detectedTools : List Tool
  detectedActions : List CookingAction
  detectedText : List String
deriving DecidableEq, Repr

/-! ## timeline-integrator.ts data model -/

/-- `TimelineSegment` interface. -/
structure TimelineSegment where
  startTime : ℚ
  endTime : ℚ
  mainAction : String
  ingredients : List String
  tools : List String
  description : String
  keyFrames : List ℕ
deriving DecidableEq, Repr

/-- `IngredientInfo` interface; `estimatedAmount` is optional and filled in by
the second pass of `aggregateIngredients`. -/
structure IngredientInfo where
  name : String
  firstAppearance : ℚ
  lastAppearance : ℚ
  frequency : ℕ
  estimatedAmount : Option String
deriving DecidableEq, Repr

/-- `CookingPhase` interface (the optional `subPhases` field is never set by
the code and is omitted). -/
structure CookingPhase where
  phase : String
  startTime : ℚ
  endTime : ℚ
  description : String
deriving DecidableEq, Repr

/-- `IntegratedRecipeData` interface.  `allIngredients: Map<string,
IngredientInfo>` is an insertion-ordered association list here, and
`allTools: Set<string>` an insertion-ordered duplicate-free list. -/
structure IntegratedRecipeData where
  totalDuration : ℚ
  allIngredients : List (String × IngredientInfo)
  allTools : List String
  timeline : List TimelineSegment
  cookingPhases : List CookingPhase
deriving DecidableEq, Repr

/-- `ACTION_CONTINUITY_THRESHOLD = 5` seconds. -/
def ACTION_CONTINUITY_THRESHOLD : ℚ := 5

/-- `MIN_SEGMENT_DURATION = 3` seconds. -/
def MIN_SEGMENT_DURATION : ℚ := 3

/-- `CONFIDENCE_THRESHOLD = 70`. -/
def CONFIDENCE_THRESHOLD : ℚ := 70

/-- Plural→singular lookup table of `normalizeIngredientName`. -/
def pluralMappings : List (String × String) :=
  [("tomatoes", "tomato"), ("potatoes", "potato"), ("onions", "onion"),
   ("carrots", "carrot"), ("eggs", "egg")]

/-- `normalizeIngredientName`: lowercase, trim, singularize known plurals. -/
def normalizeIngredientName (name : String) : String :=
  let normalized := strTrim (strToLower name)
  (((pluralMappings.find? (fun p => p.1 == normalized)).map (fun p => p.2)).getD normalized)

/-- `normalizeToolName`: lowercase and trim. -/
def normalizeToolName (name : String) : String :=
  strTrim (strToLower name)

/-- Fixed table of common default amounts in `estimateIngredientAmount`. -/
def commonAmounts : List (String × String) :=
  [("salt", "to taste"), ("pepper", "to taste"), ("oil", "2-3 tablespoons"),
   ("butter", "2 tablespoons"), ("garlic", "2-3 cloves"), ("onion", "1 medium")]

/-- `estimateIngredientAmount(name, frequency)`. -/
def estimateIngredientAmount (name : String) (frequency : ℕ) : String :=
  let normalizedName := strToLower name
  match commonAmounts.find? (fun p => p.1 == normalizedName) with
  | some p => p.2
  | none =>
    if 10 < frequency then "main ingredient"
    else if 5 < frequency then "moderate amount"
    else "small amount"

/-- First-match in-place value update of an association list (JS `Map.set` on
an existing key keeps its position; the source mutates the found record). -/
def mapUpdate : List (String × IngredientInfo) → String →
    (IngredientInfo → IngredientInfo) → List (String × IngredientInfo)
  | [], _, _ => []
  | (k0, v) :: rest, k, f =>
    if k0 == k then (k0, f v) :: rest else (k0, v) :: mapUpdate rest k f

/-- Inner loop of `aggregateIngredients`: fold one frame's detections into the
ingredient map. -/
def ingFold (ts : ℚ) : List Ingredient → List (String × IngredientInfo) →
    List (String × IngredientInfo)
  | [], m => m
  | ing :: rest, m =>
    if ing.confidence < CONFIDENCE_THRESHOLD then ingFold ts rest m
    else
      let normalizedName := normalizeIngredientName ing.name
      if m.any (fun e => e.1 == normalizedName) then
        ingFold ts rest (mapUpdate m normalizedName
          (fun info => { info with lastAppearance := ts, frequency := info.frequency + 1 }))
      else
        ingFold ts rest (m ++ [(normalizedName,
          { name := ing.name, firstAppearance := ts, lastAppearance := ts,
            frequency := 1, estimatedAmount := none })])

/-- Outer loop of `aggregateIngredients` over the frames. -/
def aggLoop : List FrameAnalysisResult → List (String × IngredientInfo) →
    List (String × IngredientInfo)
  | [], m => m
  | frame :: rest, m => aggLoop rest (ingFold frame.timestamp frame.detectedIngredients m)

/-- `aggregateIngredients`: accumulate `IngredientInfo` per normalized name,
then fill each record's `estimatedAmount`. -/
def aggregateIngredients (frames : List FrameAnalysisResult) :
    List (String × IngredientInfo) :=
  (aggLoop frames []).map (fun e =>
    (e.1, { e.2 with estimatedAmount := some (estimateIngredientAmount e.1 e.2.frequency) }))

/-- Insertion-ordered `Set.add`. -/
def setAdd (s : List String) (x : String) : List String :=
  if x ∈ s then s else s ++ [x]

/-- `aggregateTools`: collect normalized tool names above threshold. -/
def aggregateTools (frames : List FrameAnalysisResult) : List String :=
  frames.foldl (fun toolSet frame =>
    frame.detectedTools.foldl (fun toolSet tool =>
      if CONFIDENCE_THRESHOLD ≤ tool.confidence then setAdd toolSet (normalizeToolName tool.name)
      else toolSet) toolSet) []

/-- `determineMainAction`: the first detected action, or the synthetic
"Preparing". -/
def determineMainAction (frame : FrameAnalysisResult) : String :=
  match frame.detectedActions with
  | [] => "Preparing"
  | a :: _ => a.action

/-- The category table of `areSimilarActions`, in `Object.values` order. -/
def actionCategories : List (List String) :=
  [["cut", "chop", "slice", "dice", "mince"],
   ["fry", "boil", "steam", "bake", "grill", "cook"],
   ["mix", "stir", "whisk", "fold", "blend"],
   ["wash", "peel", "drain", "prepare"]]

/-- `areSimilarActions`: same category bucket, or equal after lowercasing. -/
def areSimilarActions (action1 action2 : String) : Bool :=
  actionCategories.any (fun category =>
    category.any (fun a => strContains (strToLower action1) a) &&
    category.any (fun a => strContains (strToLower action2) a))
  || strToLower action1 == strToLower action2

/-- `isContinuousAction`. -/
def isContinuousAction (previousAction currentAction : String)
    (currentTime previousEndTime : ℚ) : Bool :=
  if ACTION_CONTINUITY_THRESHOLD < currentTime - previousEndTime then false
  else areSimilarActions previousAction currentAction

/-- JS `array.includes(x) || array.push(x)` pattern used by
`updateSegmentContents`. -/
def addUnique (xs : List String) (x : String) : List String :=
  if x ∈ xs then xs else xs ++ [x]

/-- `updateSegmentContents`: add the frame's above-threshold ingredients and
tools to the segment, deduplicated. -/
def updateSegmentContents (segment : TimelineSegment) (frame : FrameAnalysisResult) :
    TimelineSegment :=
  let ingredients := frame.detectedIngredients.foldl (fun acc ingredient =>
    if CONFIDENCE_THRESHOLD ≤ ingredient.confidence then
      addUnique acc (normalizeIngredientName ingredient.name)
    else acc) segment.ingredients
  let tools := frame.detectedTools.foldl (fun acc tool =>
    if CONFIDENCE_THRESHOLD ≤ tool.confidence then
      addUnique acc (normalizeToolName tool.name)
    else acc) segment.tools
  { segment with ingredients := ingredients, tools := tools }

/-- `generateSegmentDescription`. -/
def generateSegmentDescription (segment : TimelineSegment) : String :=
  let duration := jsRound (segment.endTime - segment.startTime)
  let ingredientsList := String.intercalate ", " (segment.ingredients.take 3)
  let toolsList := String.intercalate " and " (segment.tools.take 2)
  let description := segment.mainAction
  let description := if ingredientsList != "" then description ++ " " ++ ingredientsList
    else description
  let description := if toolsList != "" then description ++ " using " ++ toolsList
    else description
  description ++ " (" ++ toString duration ++ " seconds)"

/-- A fresh segment opened at the given frame (the object literal in
`createTimelineSegments`). -/
def freshSeg (frame : FrameAnalysisResult) : TimelineSegment :=
  { startTime := frame.timestamp, endTime := frame.timestamp,
    mainAction := determineMainAction frame, ingredients := [], tools := [],
    description := "", keyFrames := [frame.frameNumber] }

/-- The loop of `createTimelineSegments`: one in-flight segment at a time;
closing a segment appends it only if its duration reaches
`MIN_SEGMENT_DURATION`. -/
def segLoop : List FrameAnalysisResult → List TimelineSegment → Option TimelineSegment →
    List TimelineSegment × Option TimelineSegment
  | [], segments, currentSegment => (segments, currentSegment)
  | frame :: rest, segments, none =>
    segLoop rest segments (some (updateSegmentContents (freshSeg frame) frame))
  | frame :: rest, segments, some c =>
    if isContinuousAction c.mainAction (determineMainAction frame) frame.timestamp c.endTime then
      segLoop rest segments (some (updateSegmentContents
        { c with endTime := frame.timestamp, keyFrames := c.keyFrames ++ [frame.frameNumber] }
        frame))
    else
      let segments :=
        if MIN_SEGMENT_DURATION ≤ c.endTime - c.startTime then segments ++ [c] else segments
      segLoop rest segments (some (updateSegmentContents (freshSeg frame) frame))

/-- `createTimelineSegments`: run the loop, flush the in-flight segment if long
enough, then render each surviving segment's description. -/
def createTimelineSegments (frames : List FrameAnalysisResult) : List TimelineSegment :=
  let state := segLoop frames [] none
  let segments :=
    match state.2 with
    | some c =>
      if MIN_SEGMENT_DURATION ≤ c.endTime - c.startTime then state.1 ++ [c] else state.1
    | none => state.1
  segments.map (fun s => { s with description := generateSegmentDescription s })

/-- Does a segment's main action mention one of the phase's keywords
(the `timeline.filter(s => actions.some(a => s.mainAction.toLowerCase()
.includes(a)))` test shared by the three find*Phase functions)? -/
def segMatchesActions (actions : List String) (s : TimelineSegment) : Bool :=
  actions.any (fun action => strContains (strToLower s.mainAction) action)

/-- Keywords of `findPreparationPhase`. -/
def prepActions : List String := ["cutting", "chopping", "slicing", "washing", "peeling"]

/-- Keywords of `findCookingPhase`. -/
def cookingActions : List String :=
  ["frying", "boiling", "steaming", "baking", "grilling", "cooking"]

/-- Keywords of `findFinishingPhase`. -/
def finishingActions : List String := ["plating", "garnishing", "serving", "arranging"]

/-- Shared shape of `findPreparationPhase` / `findCookingPhase` /
`findFinishingPhase`: filter the timeline by the phase's keyword set; if empty
return null, else span from the first match's startTime to the last match's
endTime. -/
def findPhaseBy (actions : List String) (label descr : String)
    (timeline : List TimelineSegment) : Option CookingPhase :=
  match timeline.filter (segMatchesActions actions) with
  | [] => none
  | first :: rest => some
    { phase := label, startTime := first.startTime,
      endTime := ((first :: rest).getLast (List.cons_ne_nil first rest)).endTime,
      description := descr }

/-- `findPreparationPhase`. -/
def findPreparationPhase (timeline : List TimelineSegment) : Option CookingPhase :=
  findPhaseBy prepActions "Preparation"
    "Preparing ingredients by cutting, washing, and organizing" timeline

/-- `findCookingPhase`. -/
def findCookingPhase (timeline : List TimelineSegment) : Option CookingPhase :=
  findPhaseBy cookingActions "Cooking" "Main cooking process" timeline

/-- `findFinishingPhase`. -/
def findFinishingPhase (timeline : List TimelineSegment) : Option CookingPhase :=
  findPhaseBy finishingActions "Finishing" "Final plating and presentation" timeline

/-- `identifyCookingPhases(timeline, frames)`: push Preparation, Cooking,
Finishing in that order when found (the `frames` parameter is unused by the
source body, kept for fidelity). -/
def identifyCookingPhases (timeline : List TimelineSegment)
    (_frames : List FrameAnalysisResult) : List CookingPhase :=
  (findPreparationPhase timeline).toList ++ (findCookingPhase timeline).toList ++
    (findFinishingPhase timeline).toList

/-- The frame comparator `(a, b) => a.timestamp - b.timestamp` (ascending). -/
def frameLE (a b : FrameAnalysisResult) : Prop := a.timestamp ≤ b.timestamp

instance : DecidableRel frameLE :=
  fun a b => inferInstanceAs (Decidable (a.timestamp ≤ b.timestamp))

instance : IsTotal FrameAnalysisResult frameLE := ⟨fun a b => le_total a.timestamp b.timestamp⟩

instance : IsTrans FrameAnalysisResult frameLE := ⟨fun _ _ _ => le_trans⟩

/-- `[...frameResults].sort((a, b) => a.timestamp - b.timestamp)`: a stable
ascending sort of a copy. -/
def sortFrames (frames : List FrameAnalysisResult) : List FrameAnalysisResult :=
  List.insertionSort frameLE frames

/-- `integrate(frameResults)`: sort a local copy by timestamp, aggregate
ingredients and tools, build the timeline segments and cooking phases;
`totalDuration` is the last sorted frame's timestamp, or 0 when there is none
(`sortedFrames[sortedFrames.length - 1]?.timestamp || 0`). -/
def integrate (frameResults : List FrameAnalysisResult) : IntegratedRecipeData :=
  let sortedFrames := sortFrames frameResults
  let timeline := createTimelineSegments sortedFrames
  { totalDuration := ((sortedFrames.getLast?).map (fun f => f.timestamp)).getD 0,
    allIngredients := aggregateIngredients sortedFrames,
    allTools := aggregateTools sortedFrames,
    timeline := timeline,
    cookingPhases := identifyCookingPhases timeline sortedFrames }

/-- `integrate` with the caller's array modeled as explicitly threaded state:
the spread `[...frameResults]` copies the array and `.sort` mutates only that
copy, so the state handed back to the caller is unchanged.  (Had the source
sorted the caller's array in place, the second component would be
`sortFrames frameResults`.) -/
def integrateCall (frameResults : List FrameAnalysisResult) :
    IntegratedRecipeData × List FrameAnalysisResult :=
  (integrate frameResults, frameResults)

/-! ## Frame analyzer (FrameAnalyzer class) -/

/-- `INGREDIENT_KEYWORDS`. -/
def INGREDIENT_KEYWORDS : List String :=
  ["vegetable", "fruit", "meat", "fish", "seafood", "dairy", "grain",
   "herb", "spice", "bread", "pasta", "rice", "egg", "cheese", "milk",
   "tomato", "onion", "garlic", "carrot", "potato", "chicken", "beef",
   "pork", "salmon", "tuna", "shrimp", "butter", "oil", "salt", "pepper"]

/-- `TOOL_KEYWORDS`. -/
def TOOL_KEYWORDS : List String :=
  ["knife", "cutting board", "pan", "pot", "spatula", "spoon", "fork",
   "bowl", "plate", "oven", "stove", "mixer", "blender", "whisk",
   "ladle", "tongs", "peeler", "grater", "colander", "measuring cup"]

/-- `ACTION_KEYWORDS`. -/
def ACTION_KEYWORDS : List String :=
  ["cutting", "chopping", "slicing", "dicing", "mincing",
   "cooking", "frying", "boiling", "steaming", "baking", "grilling",
   "mixing", "stirring", "whisking", "folding", "blending",
   "washing", "peeling", "draining", "marinating", "seasoning",
   "serving", "plating", "garnishing", "arranging"]

/-- AWS Rekognition `Label` (only the fields the analyzer reads: `Name?` and
`Confidence?`; `Instances[0].BoundingBox` feeds only the omitted boundingBox
pass-through). -/
structure RekLabel where
  Name : Option String
  Confidence : Option ℚ
deriving DecidableEq, Repr

/-- AWS Rekognition `CustomLabel` (same reads). -/
structure RekCustomLabel where
  Name : Option String
  Confidence : Option ℚ
deriving DecidableEq, Repr

/-- `label.Name?.toLowerCase() || ''`. -/
def labelName (l : RekLabel) : String := strToLower (l.Name.getD "")

/-- `label.Confidence || 0`. -/
def labelConf (l : RekLabel) : ℚ := l.Confidence.getD 0

/-- `customLabel.Name?.toLowerCase() || ''`. -/
def cusName (c : RekCustomLabel) : String := strToLower (c.Name.getD "")

/-- `customLabel.Confidence || 0`. -/
def cusConf (c : RekCustomLabel) : ℚ := c.Confidence.getD 0

/-- `isLikelyFoodItem`. -/
def isLikelyFoodItem (name : String) : Bool :=
  ["fresh", "raw", "cooked", "fried", "baked", "roasted", "grilled",
   "chopped", "sliced", "diced", "minced", "organic", "natural",
   "homemade", "recipe", "ingredient", "seasoning", "flavor"].any
    (fun indicator => strContains name indicator)

/-- `categorizeIngredient` (FrameAnalyzer): first matching category table
entry, else "other". -/
def categorizeIngredient (name : String) : String :=
  let categories : List (String × List String) :=
    [("vegetable", ["tomato", "onion", "garlic", "carrot", "potato", "lettuce", "cucumber"]),
     ("meat", ["chicken", "beef", "pork", "lamb", "turkey"]),
     ("seafood", ["fish", "salmon", "tuna", "shrimp", "crab", "lobster"]),
     ("dairy", ["milk", "cheese", "butter", "yogurt", "cream"]),
     ("grain", ["rice", "pasta", "bread", "wheat", "oat"]),
     ("fruit", ["apple", "banana", "orange", "lemon", "strawberry"]),
     ("spice", ["salt", "pepper", "paprika", "cumin", "oregano"])]
  match categories.find? (fun c => c.2.any (fun keyword => strContains name keyword)) with
  | some c => c.1
  | none => "other"

/-- `isLikelyCookingTool`. -/
def isLikelyCookingTool (name : String) : Bool :=
  ["kitchen", "utensil", "appliance", "cookware", "bakeware",
   "cutlery", "tableware", "equipment", "gadget", "tool"].any
    (fun indicator => strContains name indicator)

/-- `categorizeTool` (FrameAnalyzer): first matching type table entry, else
"other". -/
def categorizeTool (name : String) : String :=
  let types : List (String × List String) :=
    [("cutting", ["knife", "peeler", "grater"]),
     ("cooking", ["pan", "pot", "oven", "stove"]),
     ("mixing", ["bowl", "whisk", "spoon", "spatula"]),
     ("measuring", ["cup", "spoon", "scale"]),
     ("serving", ["plate", "fork", "ladle"])]
  match types.find? (fun t => t.2.any (fun keyword => strContains name keyword)) with
  | some t => t.1
  | none => "other"

/-- The `seen`-set deduplicating accumulation loop shared by `extractIngredients`
(general and custom label passes) and `extractTools`: for each item, if it is
accepted and its key has not been seen, push `mk item` and record the key. -/
def scanDedup {α β : Type} (accept : α → Bool) (key : α → String) (mk : α → β) :
    List α → List β → List String → List β × List String
  | [], acc, seen => (acc, seen)
  | x :: xs, acc, seen =>
    if accept x then
      if key x ∈ seen then scanDedup accept key mk xs acc seen
      else scanDedup accept key mk xs (acc ++ [mk x]) (seen ++ [key x])
    else scanDedup accept key mk xs acc seen

/-- Acceptance test of the general-label pass of `extractIngredients`:
confidence above the (mode-dependent) threshold and an ingredient-like name. -/
def ingAccept (thr : ℚ) (l : RekLabel) : Bool :=
  thr ≤ labelConf l &&
    (INGREDIENT_KEYWORDS.any (fun keyword => strContains (labelName l) keyword) ||
     isLikelyFoodItem (labelName l))

/-- The ingredient record pushed by the general-label pass. -/
def mkIngFromLabel (l : RekLabel) : Ingredient :=
  { name := l.Name.getD "", confidence := labelConf l,
    category := categorizeIngredient (labelName l) }

/-- Acceptance test of the custom-label pass of `extractIngredients`. -/
def cusAccept (thr : ℚ) (c : RekCustomLabel) : Bool :=
  thr ≤ cusConf c

/-- The ingredient record pushed by the custom-label pass. -/
def mkIngFromCustom (c : RekCustomLabel) : Ingredient :=
  { name := c.Name.getD "", confidence := cusConf c,
    category := categorizeIngredient (cusName c) }

/-- `detectAdditionalFoodItems(labels, seen)` (the short-video recall pass). -/
def detectAdditionalFoodItems (labels : List RekLabel) (seen : List String) :
    List Ingredient :=
  let foodRelatedTerms : List String :=
    ["dish", "meal", "cuisine", "plate", "bowl", "cooking", "food", "snack",
     "breakfast", "lunch", "dinner", "recipe", "ingredient", "sauce", "soup",
     "salad", "sandwich", "pasta", "pizza", "bread", "cake", "dessert"]
  (labels.filter (fun l =>
    (50 : ℚ) ≤ labelConf l && !(labelName l ∈ seen) &&
      foodRelatedTerms.any (fun term => strContains (labelName l) term))).map
    (fun l => { name := l.Name.getD "", confidence := labelConf l, category := "general" })

/-- Descending-confidence order on ingredients
(`(a, b) => b.confidence - a.confidence`). -/
def ingConfDesc (a b : Ingredient) : Prop := b.confidence ≤ a.confidence

instance : DecidableRel ingConfDesc :=
  fun a b => inferInstanceAs (Decidable (b.confidence ≤ a.confidence))

instance : IsTotal Ingredient ingConfDesc := ⟨fun a b => le_total b.confidence a.confidence⟩

instance : IsTrans Ingredient ingConfDesc := ⟨fun _ _ _ h1 h2 => le_trans h2 h1⟩

/-- `extractIngredients(labels, customLabels, isShortVideo)`: threshold 55 in
short-video mode, 70 otherwise; dedup general then custom labels by lowercased
name; in short mode also append `detectAdditionalFoodItems`; sort by
descending confidence. -/
def extractIngredients (labels : List RekLabel) (customLabels : List RekCustomLabel)
    (isShortVideo : Bool) : List Ingredient :=
  let confidenceThreshold : ℚ := if isShortVideo then 55 else 70
  let pass1 := scanDedup (ingAccept confidenceThreshold) labelName mkIngFromLabel labels [] []
  let pass2 := scanDedup (cusAccept confidenceThreshold) cusName mkIngFromCustom
    customLabels pass1.1 pass1.2
  let ingredients :=
    if isShortVideo then pass2.1 ++ detectAdditionalFoodItems labels pass2.2 else pass2.1
  List.insertionSort ingConfDesc ingredients

/-- Acceptance test of `extractTools`. -/
def toolAccept (thr : ℚ) (l : RekLabel) : Bool :=
  thr ≤ labelConf l &&
    (TOOL_KEYWORDS.any (fun keyword => strContains (labelName l) keyword) ||
     isLikelyCookingTool (labelName l))

/-- The tool record pushed by `extractTools`. -/
def mkToolFromLabel (l : RekLabel) : Tool :=
  { name := l.Name.getD "", confidence := labelConf l,
    type := categorizeTool (labelName l) }

/-- `detectAdditionalCookingTools(labels, seen)`. -/
def detectAdditionalCookingTools (labels : List RekLabel) (seen : List String) :
    List Tool :=
  let toolRelatedTerms : List String :=
    ["container", "vessel", "holder", "rack", "stand", "board",
     "mat", "towel", "glove", "mitt", "apron", "timer"]
  (labels.filter (fun l =>
    (50 : ℚ) ≤ labelConf l && !(labelName l ∈ seen) &&
      toolRelatedTerms.any (fun term => strContains (labelName l) term))).map
    (fun l => { name := l.Name.getD "", confidence := labelConf l, type := "accessory" })

/-- Descending-confidence order on tools. -/
def toolConfDesc (a b : Tool) : Prop := b.confidence ≤ a.confidence

instance : DecidableRel toolConfDesc :=
  fun a b => inferInstanceAs (Decidable (b.confidence ≤ a.confidence))

instance : IsTotal Tool toolConfDesc := ⟨fun a b => le_total b.confidence a.confidence⟩

instance : IsTrans Tool toolConfDesc := ⟨fun _ _ _ h1 h2 => le_trans h2 h1⟩

/-- `extractTools(labels, customLabels, isShortVideo)` (the `customLabels`
parameter is unused by the source body, kept for fidelity). -/
def extractTools (labels : List RekLabel) (_customLabels : List RekCustomLabel)
    (isShortVideo : Bool) : List Tool :=
  let confidenceThreshold : ℚ := if isShortVideo then 55 else 70
  let pass1 := scanDedup (toolAccept confidenceThreshold) labelName mkToolFromLabel labels [] []
  let tools :=
    if isShortVideo then pass1.1 ++ detectAdditionalCookingTools labels pass1.2 else pass1.1
  List.insertionSort toolConfDesc tools

/-- `findRelatedIngredients(action, ingredients)`: the first three ingredient
names (the action argument is unused by the source body). -/
def findRelatedIngredients (_action : String) (ingredients : List Ingredient) :
    List IngredientRef :=
  (ingredients.take 3).map (fun i => IngredientRef.byName i.name)

/-- The `actionToolMap` table of `findRelatedTools`. -/
def actionToolMap : List (String × List String) :=
  [("cut", ["knife", "cutting board"]), ("fry", ["pan", "spatula"]),
   ("boil", ["pot", "ladle"]), ("mix", ["bowl", "whisk", "spoon"]),
   ("bake", ["oven", "baking sheet"])]

/-- `findRelatedTools(action, tools)`: first map entry whose key occurs in the
action, then the names of the tools matching that entry's related-tool terms. -/
def findRelatedTools (action : String) (tools : List Tool) : List ToolRef :=
  match actionToolMap.find? (fun e => strContains (strToLower action) e.1) with
  | some e =>
    (tools.filter (fun t => e.2.any (fun rt => strContains (strToLower t.name) rt))).map
      (fun t => ToolRef.byName t.name)
  | none => []

/-- `interpretActionFromLabel`. -/
def interpretActionFromLabel (nm : String) : String :=
  if strContains nm "hand" || strContains nm "finger" then "mixing"
  else if strContains nm "motion" || strContains nm "movement" then "stirring"
  else if strContains nm "gesture" then "seasoning"
  else if strContains nm "pouring" then "pouring"
  else if strContains nm "heating" then "cooking"
  else "preparing"

/-- `detectAdditionalActions(labels, ingredients, tools)` (short-video pass;
confidence is scaled by 0.8 because the action is interpreted, not observed). -/
def detectAdditionalActions (labels : List RekLabel) (ingredients : List Ingredient)
    (tools : List Tool) : List CookingAction :=
  let actionRelatedTerms : List String :=
    ["hand", "finger", "motion", "movement", "gesture", "stirring", "mixing",
     "pouring", "adding", "combining", "heating", "cooking", "preparing"]
  (labels.filter (fun l =>
    (45 : ℚ) ≤ labelConf l &&
      actionRelatedTerms.any (fun term => strContains (labelName l) term))).map
    (fun l =>
      { action := interpretActionFromLabel (labelName l),
        confidence := labelConf l * (0.8 : ℚ),
        relatedIngredients := (ingredients.take 2).map IngredientRef.byRecord,
        relatedTools := (tools.take 1).map ToolRef.byRecord })

/-- `inferActionsFromContext(ingredients, tools, isShortVideo)`: the fixed
ingredient+tool co-occurrence rule table.  Base confidence 85 in normal mode,
70 in short-video mode; the three extra rules fire only in short-video mode. -/
def inferActionsFromContext (ingredients : List Ingredient) (tools : List Tool)
    (isShortVideo : Bool) : List CookingAction :=
  let baseConfidence : ℚ := if isShortVideo then 70 else 85
  let cuttingRule :=
    if tools.any (fun t => strContains (strToLower t.name) "knife") &&
        ingredients.any (fun i => i.category == "vegetable") then
      [{ action := "Cutting vegetables", confidence := baseConfidence,
         relatedIngredients :=
           (ingredients.filter (fun i => i.category == "vegetable")).map IngredientRef.byRecord,
         relatedTools :=
           (tools.filter (fun t => strContains (strToLower t.name) "knife")).map ToolRef.byRecord }]
    else []
  let fryingRule :=
    if tools.any (fun t => strContains (strToLower t.name) "pan") &&
        ingredients.any (fun i => i.category == "meat" || i.category == "vegetable") then
      [{ action := "Frying", confidence := baseConfidence - 5,
         relatedIngredients :=
           (ingredients.filter (fun i => i.category == "meat" || i.category == "vegetable")).map
             IngredientRef.byRecord,
         relatedTools :=
           (tools.filter (fun t => strContains (strToLower t.name) "pan")).map ToolRef.byRecord }]
    else []
  let mixingRule :=
    if tools.any (fun t => strContains (strToLower t.name) "bowl") && decide (2 ≤ ingredients.length) then
      [{ action := "Mixing ingredients", confidence := baseConfidence - 10,
         relatedIngredients := (ingredients.take 3).map IngredientRef.byRecord,
         relatedTools :=
           (tools.filter (fun t => strContains (strToLower t.name) "bowl")).map ToolRef.byRecord }]
    else []
  let shortRules :=
    if isShortVideo then
      (if ingredients.any (fun i => strContains (strToLower i.name) "egg") &&
          tools.any (fun t => strContains (strToLower t.name) "pan") then
        [{ action := "Making scrambled eggs", confidence := 75,
           relatedIngredients :=
             (ingredients.filter (fun i => strContains (strToLower i.name) "egg")).map
               IngredientRef.byRecord,
           relatedTools :=
             (tools.filter (fun t => strContains (strToLower t.name) "pan")).map ToolRef.byRecord }]
      else []) ++
      (let vegetables := ingredients.filter (fun i => i.category == "vegetable")
       if 2 ≤ vegetables.length then
        [{ action := "Making salad", confidence := 65,
           relatedIngredients := vegetables.map IngredientRef.byRecord, relatedTools := [] }]
       else []) ++
      (if 0 < ingredients.length ∧ 0 < tools.length then
        [{ action := "Cooking with heat", confidence := 60,
           relatedIngredients := (ingredients.take 2).map IngredientRef.byRecord,
           relatedTools := (tools.take 1).map ToolRef.byRecord }]
      else [])
    else []
  cuttingRule ++ fryingRule ++ mixingRule ++ shortRules

/-- Acceptance test of the direct-action pass of `inferCookingActions`. -/
def actAccept (thr : ℚ) (l : RekLabel) : Bool :=
  thr ≤ labelConf l && ACTION_KEYWORDS.any (fun keyword => strContains (labelName l) keyword)

/-- The action record pushed by the direct-action pass. -/
def mkActFromLabel (ingredients : List Ingredient) (tools : List Tool) (l : RekLabel) :
    CookingAction :=
  { action := l.Name.getD "", confidence := labelConf l,
    relatedIngredients := findRelatedIngredients (labelName l) ingredients,
    relatedTools := findRelatedTools (labelName l) tools }

/-- Descending-confidence order on actions. -/
def actConfDesc (a b : CookingAction) : Prop := b.confidence ≤ a.confidence

instance : DecidableRel actConfDesc :=
  fun a b => inferInstanceAs (Decidable (b.confidence ≤ a.confidence))

instance : IsTotal CookingAction actConfDesc := ⟨fun a b => le_total b.confidence a.confidence⟩

instance : IsTrans CookingAction actConfDesc := ⟨fun _ _ _ h1 h2 => le_trans h2 h1⟩

/-- `inferCookingActions(labels, ingredients, tools, isShortVideo)`: threshold
70 (50 in short mode) for direct action labels; in short mode also
`detectAdditionalActions`; whenever both ingredients and tools are nonempty,
append `inferActionsFromContext`; sort by descending confidence. -/
def inferCookingActions (labels : List RekLabel) (ingredients : List Ingredient)
    (tools : List Tool) (isShortVideo : Bool) : List CookingAction :=
  let confidenceThreshold : ℚ := if isShortVideo then 50 else 70
  let actions := (labels.filter (actAccept confidenceThreshold)).map
    (mkActFromLabel ingredients tools)
  let actions :=
    if isShortVideo then actions ++ detectAdditionalActions labels ingredients tools
    else actions
  let actions :=
    if 0 < ingredients.length ∧ 0 < tools.length then
      actions ++ inferActionsFromContext ingredients tools isShortVideo
    else actions
  List.insertionSort actConfDesc actions

/-! ## Cross-modal fuser (RecipeProcessorService, recipe-processor.ts) -/

/-- A visual-ingredient record as handed to `mergeAudioVisualIngredients`
(typed `any[]` in the source; the frame analyzer produces records with no
`source` field, hence the `Option`). -/
structure VisualIng where
  name : String
  confidence : ℚ
  source : Option String
  category : Option String
deriving DecidableEq, Repr

/-- The audio loop of `mergeAudioVisualIngredients`.  For an audio ingredient
already present visually (case-insensitive) nothing is pushed.  For an
audio-only ingredient the source evaluates
`this.categorizeIngredient(audioIngredient.toLowerCase())` while building the
pushed record — but `categorizeIngredient` is not a method of
`RecipeProcessorService` (it exists only on `FrameAnalyzer`), so the call
throws a TypeError at run time; the embedding surfaces that as `Except.error`. -/
def mergeLoop (visualNames : List String) : List String → List VisualIng →
    Except String (List VisualIng)
  | [], merged => .ok merged
  | audioIngredient :: rest, merged =>
    if strToLower audioIngredient ∈ visualNames then mergeLoop visualNames rest merged
    else .error "TypeError: this.categorizeIngredient is not a function"

/-- `mergeAudioVisualIngredients(audioIngredients, visualIngredients)`. -/
def mergeAudioVisualIngredients (audioIngredients : List String)
    (visualIngredients : List VisualIng) : Except String (List VisualIng) :=
  let visualNames := visualIngredients.map (fun v => strToLower v.name)
  mergeLoop visualNames audioIngredients visualIngredients

/-- A fused/integrated step record (the audio steps of
`extractStepsFromAudio` and the visual pushes of `integrateCookingSteps`
share this shape; `visualData` is present only on the visual pushes). -/
structure FusedStep where
  stepNumber : ℕ
  description : String
  timestamp : ℚ
  confidence : ℚ
  source : String
  visualData : Option (List (Option String) × List (Option String))
deriving DecidableEq, Repr

/-- JS `(i: any) => i.name` over `relatedIngredients`: a plain name string has
no `.name` property (undefined, here `none`); a record yields its name. -/
def refIngName : IngredientRef → Option String
  | .byName _ => none
  | .byRecord i => some i.name

/-- Same for `relatedTools`. -/
def refToolName : ToolRef → Option String
  | .byName _ => none
  | .byRecord t => some t.name

/-- The `actionMap` table of `isRelatedAction`. -/
def actionMap : List (String × List String) :=
  [("cutting", ["切る", "カット", "刻む"]), ("frying", ["炒める", "焼く", "フライ"]),
   ("mixing", ["混ぜる", "ミックス", "かき混ぜ"]), ("cooking", ["調理", "料理", "作る"]),
   ("boiling", ["茹でる", "煮る"]), ("steaming", ["蒸す", "スチーム"])]

/-- `isRelatedAction(audioDescription, visualAction)`. -/
def isRelatedAction (audioDescription visualAction : String) : Bool :=
  let relatedTerms :=
    (((actionMap.find? (fun e => e.1 == strToLower visualAction)).map (fun e => e.2)).getD [])
  relatedTerms.any (fun term => strContains audioDescription term)

/-- The `audioSteps.find(step => step.description.includes(action.action
.toLowerCase()) || this.isRelatedAction(step.description, action.action))`
test of `integrateCookingSteps`. -/
def stepMatchesAction (action : CookingAction) (step : FusedStep) : Bool :=
  strContains step.description (strToLower action.action) ||
    isRelatedAction step.description action.action

/-- The record pushed by `integrateCookingSteps` for a visual action with no
related audio step (`index` is the action's index in `visualActions`). -/
def mkVisualStep (audioLen : ℕ) (index : ℕ) (action : CookingAction) : FusedStep :=
  { stepNumber := audioLen + index + 1,
    description := action.action ++ "（映像分析）",
    timestamp := 0, confidence := action.confidence, source := "visual",
    visualData := some (action.relatedIngredients.map refIngName,
      action.relatedTools.map refToolName) }

/-- The `visualActions.forEach` loop of `integrateCookingSteps`. -/
def fuseLoop (audioSteps : List FusedStep) : List (ℕ × CookingAction) → List FusedStep →
    List FusedStep
  | [], integratedSteps => integratedSteps
  | (index, action) :: rest, integratedSteps =>
    if (audioSteps.find? (stepMatchesAction action)).isSome then
      fuseLoop audioSteps rest integratedSteps
    else
      fuseLoop audioSteps rest
        (integratedSteps ++ [mkVisualStep audioSteps.length index action])

/-- Descending-confidence order on fused steps. -/
def stepConfDesc (a b : FusedStep) : Prop := b.confidence ≤ a.confidence

instance : DecidableRel stepConfDesc :=
  fun a b => inferInstanceAs (Decidable (b.confidence ≤ a.confidence))

instance : IsTotal FusedStep stepConfDesc := ⟨fun a b => le_total b.confidence a.confidence⟩

instance : IsTrans FusedStep stepConfDesc := ⟨fun _ _ _ h1 h2 => le_trans h2 h1⟩

/-- `integrateCookingSteps(audioSteps, visualActions)`: start from the audio
steps, append a `source:'visual'` step for every visual action with no related
audio step, then sort by descending confidence. -/
def integrateCookingSteps (audioSteps : List FusedStep)
    (visualActions : List CookingAction) : List FusedStep :=
  List.insertionSort stepConfDesc (fuseLoop audioSteps visualActions.enum audioSteps)

/-- The visual actions that have no related audio step, rendered as steps —
the exact multiset `integrateCookingSteps` adds to the audio steps. -/
def unmatchedVisualSteps (audioSteps : List FusedStep)
    (visualActions : List CookingAction) : List FusedStep :=
  visualActions.enum.filterMap (fun p =>
    if (audioSteps.find? (stepMatchesAction p.2)).isSome then none
    else some (mkVisualStep audioSteps.length p.1 p.2))

/-- The two dedup passes of `extractIngredients` at a given threshold
(shorthand for stating lemmas; definitionally the passes of the function). -/
def ingRun (labels : List RekLabel) (customLabels : List RekCustomLabel) (thr : ℚ) :
    List Ingredient × List String :=
  scanDedup (cusAccept thr) cusName mkIngFromCustom customLabels
    (scanDedup (ingAccept thr) labelName mkIngFromLabel labels [] []).1
    (scanDedup (ingAccept thr) labelName mkIngFromLabel labels [] []).2

/-- The dedup pass of `extractTools` at a given threshold. -/
def toolRun (labels : List RekLabel) (thr : ℚ) : List Tool × List String :=
  scanDedup (toolAccept thr) labelName mkToolFromLabel labels [] []

/-! ## Theorems -/

/-- C9: on empty input, `integrate` produces an `IntegratedRecipeData` with
`totalDuration` 0, an empty ingredient map, empty tool set, empty segment list
and empty phase list — it does not raise. -/
theorem integrate_empty :
    integrate [] =
      { totalDuration := 0, allIngredients := [], allTools := [],
        timeline := [], cookingPhases := [] } := by
  rfl

/-- C3 (code bug): `mergeAudioVisualIngredients` throws a TypeError on any
audio-only ingredient (it calls `this.categorizeIngredient`, which is not
defined on `RecipeProcessorService`), instead of appending the
`{confidence: 80, source: 'audio'}` record the spec describes; when the audio
ingredient is also detected visually, the merge succeeds and keeps exactly the
one visual record with its own confidence (and no source tag is added). -/
theorem mergeAudioVisualIngredients_missing_method :
    mergeAudioVisualIngredients ["onion"] [] =
      Except.error "TypeError: this.categorizeIngredient is not a function"
  ∧ mergeAudioVisualIngredients ["onion"]
      [{ name := "onion", confidence := 92, source := none, category := some "vegetable" }] =
    Except.ok
      [{ name := "onion", confidence := 92, source := none, category := some "vegetable" }] := by
  exact ⟨rfl, rfl⟩

/-- C2 counterexample: an audio step (confidence 70) describing the same
cutting action as a visual action (confidence 90) yields a single fused step
with `source = "audio"` and confidence 70 — not `source = "both"` and not the
higher of the two confidences, contrary to the claim. -/
theorem integrateCookingSteps_both_cex :
    (integrateCookingSteps
      [{ stepNumber := 1, description := "please start cutting the vegetables",
         timestamp := 0, confidence := 70, source := "audio", visualData := none }]
      [{ action := "Cutting", confidence := 90, relatedIngredients := [],
         relatedTools := [] }]).map (fun s => (s.source, s.confidence)) =
      [("audio", (70 : ℚ))] := by
  decide

/-- C4 counterexample: with a direct action label "Cutting" at confidence 70
(which clears the normal-mode threshold 70) plus a detected tomato and knife,
the extractor still produces the context-inferred "Cutting vegetables" at the
fixed confidence 85, which outranks the directly observed action in the
confidence-sorted output — contrary to the claim on both counts. -/
theorem inferCookingActions_inferred_outranks_cex :
    (inferCookingActions
      [{ Name := some "Cutting", Confidence := some 70 },
       { Name := some "Tomato", Confidence := some 95 },
       { Name := some "Knife", Confidence := some 95 }]
      (extractIngredients
        [{ Name := some "Cutting", Confidence := some 70 },
         { Name := some "Tomato", Confidence := some 95 },
         { Name := some "Knife", Confidence := some 95 }] [] false)
      (extractTools
        [{ Name := some "Cutting", Confidence := some 70 },
         { Name := some "Tomato", Confidence := some 95 },
         { Name := some "Knife", Confidence := some 95 }] [] false)
      false).map (fun a => (a.action, a.confidence)) =
      [("Cutting vegetables", (85 : ℚ)), ("Cutting", 70)] := by
  decide

/-- The `visualActions.forEach` loop of `integrateCookingSteps` appends
exactly the unmatched visual actions, in order, to its accumulator. -/
theorem fuseLoop_eq (audioSteps : List FusedStep) :
    ∀ (l : List (ℕ × CookingAction)) (acc : List FusedStep),
      fuseLoop audioSteps l acc = acc ++ l.filterMap (fun p =>
        if (audioSteps.find? (stepMatchesAction p.2)).isSome then none
        else some (mkVisualStep audioSteps.length p.1 p.2)) := by
  intro l
  induction l with
  | nil => intro acc; simp [fuseLoop]
  | cons p rest ih =>
    intro acc
    obtain ⟨index, action⟩ := p
    by_cases h : (audioSteps.find? (stepMatchesAction action)).isSome = true
    · rw [show fuseLoop audioSteps ((index, action) :: rest) acc =
          fuseLoop audioSteps rest acc from by simp [fuseLoop, h]]
      rw [ih, List.filterMap_cons]
      simp [h]
    · rw [show fuseLoop audioSteps ((index, action) :: rest) acc =
          fuseLoop audioSteps rest (acc ++ [mkVisualStep audioSteps.length index action]) from by
        simp [fuseLoop, h]]
      rw [ih, List.filterMap_cons]
      simp [h]

/-- C5: the fused step list returned by `integrateCookingSteps` is sorted by
descending confidence — every step is at least as confident as every later
step (in particular every adjacent pair). -/
theorem integrateCookingSteps_sorted_desc (audioSteps : List FusedStep)
    (visualActions : List CookingAction) :
    List.Pairwise (fun a b => b.confidence ≤ a.confidence)
      (integrateCookingSteps audioSteps visualActions) := by
  have h := List.sorted_insertionSort stepConfDesc
    (fuseLoop audioSteps visualActions.enum audioSteps)
  exact h

/-- C2 amended: when an audio step and a visual action describe the same real
action (the description-containment / `isRelatedAction` match), only one step
is emitted for the pair — the audio step itself, unchanged (it keeps its
`source` and its own confidence; no `source = "both"` record and no confidence
maximum is ever produced): the fused output is exactly the audio steps plus
one `source = "visual"` step per unmatched visual action, reordered by
descending confidence. -/
theorem integrateCookingSteps_merge_amended (audioSteps : List FusedStep)
    (visualActions : List CookingAction) :
    List.Perm (integrateCookingSteps audioSteps visualActions)
      (audioSteps ++ unmatchedVisualSteps audioSteps visualActions)
  ∧ (unmatchedVisualSteps audioSteps visualActions).all
      (fun s => s.source == "visual") = true := by
  constructor
  · have hperm := List.perm_insertionSort stepConfDesc
      (fuseLoop audioSteps visualActions.enum audioSteps)
    have heq : fuseLoop audioSteps visualActions.enum audioSteps =
        audioSteps ++ unmatchedVisualSteps audioSteps visualActions := by
      rw [fuseLoop_eq]; rfl
    exact heq ▸ hperm
  · rw [List.all_eq_true]
    intro s hs
    simp only [unmatchedVisualSteps, List.mem_filterMap] at hs
    obtain ⟨p, _, hp⟩ := hs
    by_cases h : (audioSteps.find? (stepMatchesAction p.2)).isSome = true
    · simp [h] at hp
    · simp only [h, Bool.false_eq_true, not_false_iff, if_false,
        Option.some.injEq] at hp
      rw [← hp]
      rfl

/-- C4 amended: an action inferred from ingredient+tool co-occurrence is
produced whenever the extracted ingredients and tools are both nonempty — even
when an action label clears its threshold — and its confidence is one of the
fixed constants 85, 80, 75 (normal mode), which is not below the
directly-observed threshold of 70, so it can outrank a directly observed
action in the confidence-sorted output. -/
theorem inferActionsFromContext_amended (labels : List RekLabel)
    (ingredients : List Ingredient) (tools : List Tool)
    (h1 : 0 < ingredients.length) (h2 : 0 < tools.length) :
    (∀ a ∈ inferActionsFromContext ingredients tools false,
        a ∈ inferCookingActions labels ingredients tools false)
  ∧ (∀ a ∈ inferActionsFromContext ingredients tools false,
        a.confidence = 85 ∨ a.confidence = 80 ∨ a.confidence = 75) := by
  have hcond : 0 < ingredients.length ∧ 0 < tools.length := ⟨h1, h2⟩
  constructor
  · intro a ha
    simp only [inferCookingActions, Bool.false_eq_true, if_false, if_pos hcond,
      List.mem_insertionSort, List.mem_append]
    exact Or.inr ha
  · intro a ha
    simp only [inferActionsFromContext, Bool.false_eq_true, if_false,
      List.append_nil, List.mem_append] at ha
    rcases ha with (ha | ha) | ha
    · split at ha
      · rw [List.mem_singleton] at ha; subst ha; norm_num
      · simp at ha
    · split at ha
      · rw [List.mem_singleton] at ha; subst ha; norm_num
      · simp at ha
    · split at ha
      · rw [List.mem_singleton] at ha; subst ha; norm_num
      · simp at ha

/-- Witness for the C4 amended theorem at a concrete tomato + knife frame. -/
theorem inferActionsFromContext_amended_witness :
    (({ action := "Cutting vegetables", confidence := 85,
        relatedIngredients :=
          [IngredientRef.byRecord { name := "Tomato", confidence := 95, category := "vegetable" }],
        relatedTools :=
          [ToolRef.byRecord { name := "Knife", confidence := 95, type := "cutting" }] } :
        CookingAction) ∈
      inferCookingActions []
        [{ name := "Tomato", confidence := 95, category := "vegetable" }]
        [{ name := "Knife", confidence := 95, type := "cutting" }] false)
  ∧ ((85 : ℚ) = 85 ∨ (85 : ℚ) = 80 ∨ (85 : ℚ) = 75) := by
  have h := inferActionsFromContext_amended ([] : List RekLabel)
    [{ name := "Tomato", confidence := 95, category := "vegetable" }]
    [{ name := "Knife", confidence := 95, type := "cutting" }]
    (by decide) (by decide)
  exact ⟨h.1 _ (by decide), h.2
    { action := "Cutting vegetables", confidence := 85,
      relatedIngredients :=
        [IngredientRef.byRecord { name := "Tomato", confidence := 95, category := "vegetable" }],
      relatedTools :=
        [ToolRef.byRecord { name := "Knife", confidence := 95, type := "cutting" }] }
    (by decide)⟩

/-- C10: the segmenter/integrator sorts a local copy of the frame list — the
caller's array is handed back unchanged, the local copy is an ascending
permutation of the input, and the result on arbitrary (even unsorted) input is
the same as on the sorted copy, so unsorted input is handled, never an error. -/
theorem integrate_sorts_local_copy (frames : List FrameAnalysisResult) :
    (integrateCall frames).2 = frames
  ∧ List.Perm (sortFrames frames) frames
  ∧ List.Pairwise frameLE (sortFrames frames)
  ∧ integrate frames = integrate (sortFrames frames) := by
  refine ⟨rfl, List.perm_insertionSort frameLE frames,
    List.sorted_insertionSort frameLE frames, ?_⟩
  have hidem : sortFrames (sortFrames frames) = sortFrames frames :=
    List.Sorted.insertionSort_eq (List.sorted_insertionSort frameLE frames)
  simp only [integrate, sortFrames] at hidem ⊢
  rw [hidem]

theorem updateSegmentContents_startTime (s : TimelineSegment) (f : FrameAnalysisResult) :
    (updateSegmentContents s f).startTime = s.startTime := rfl

theorem updateSegmentContents_endTime (s : TimelineSegment) (f : FrameAnalysisResult) :
    (updateSegmentContents s f).endTime = s.endTime := rfl

/-- Every segment the `createTimelineSegments` loop has appended to its output
accumulator meets the minimum duration (the only pushes are guarded by the
duration test). -/
theorem segLoop_acc_inv :
    ∀ (fs : List FrameAnalysisResult) (acc : List TimelineSegment)
      (cur : Option TimelineSegment),
      (∀ s ∈ acc, MIN_SEGMENT_DURATION ≤ s.endTime - s.startTime) →
      ∀ s ∈ (segLoop fs acc cur).1, MIN_SEGMENT_DURATION ≤ s.endTime - s.startTime := by
  intro fs
  induction fs with
  | nil => intro acc cur h; simpa [segLoop] using h
  | cons f rest ih =>
    intro acc cur h
    cases cur with
    | none => exact ih acc _ h
    | some c =>
      by_cases hc : isContinuousAction c.mainAction (determineMainAction f)
          f.timestamp c.endTime = true
      · rw [show segLoop (f :: rest) acc (some c) = segLoop rest acc
            (some (updateSegmentContents
              { c with endTime := f.timestamp, keyFrames := c.keyFrames ++ [f.frameNumber] } f))
          from by simp [segLoop, hc]]
        exact ih acc _ h
      · by_cases hd : MIN_SEGMENT_DURATION ≤ c.endTime - c.startTime
        · rw [show segLoop (f :: rest) acc (some c) = segLoop rest (acc ++ [c])
              (some (updateSegmentContents (freshSeg f) f)) from by simp [segLoop, hc, hd]]
          apply ih
          intro s hs
          rcases List.mem_append.mp hs with hs | hs
          · exact h s hs
          · rw [List.mem_singleton] at hs; subst hs; exact hd
        · rw [show segLoop (f :: rest) acc (some c) = segLoop rest acc
              (some (updateSegmentContents (freshSeg f) f)) from by simp [segLoop, hc, hd]]
          exact ih acc _ h

/-- C1: every `TimelineSegment` in the segmenter's output — for every input
frame list, including the in-flight segment flushed at end of input — has
`endTime ≥ startTime` and duration at least `MIN_SEGMENT_DURATION` (3 s);
shorter candidates are discarded. -/
theorem createTimelineSegments_minDuration (frames : List FrameAnalysisResult)
    (seg : TimelineSegment) (h : seg ∈ createTimelineSegments frames) :
    seg.startTime ≤ seg.endTime ∧
      MIN_SEGMENT_DURATION ≤ seg.endTime - seg.startTime := by
  have hbase := segLoop_acc_inv frames [] none (by simp)
  simp only [createTimelineSegments, List.mem_map] at h
  obtain ⟨s0, hs0, rfl⟩ := h
  have hdur : MIN_SEGMENT_DURATION ≤ s0.endTime - s0.startTime := by
    rcases h2 : (segLoop frames [] none).2 with _ | c
    · rw [h2] at hs0
      exact hbase s0 hs0
    · rw [h2] at hs0
      by_cases hd : MIN_SEGMENT_DURATION ≤ c.endTime - c.startTime
      · simp only [hd, if_true] at hs0
        rcases List.mem_append.mp hs0 with hs | hs
        · exact hbase s0 hs
        · rw [List.mem_singleton] at hs; subst hs; exact hd
      · simp only [hd, if_false] at hs0
        exact hbase s0 hs0
  refine ⟨?_, hdur⟩
  have h3 : (3 : ℚ) ≤ s0.endTime - s0.startTime := hdur
  show s0.startTime ≤ s0.endTime
  linarith

/-- Witness for C1 at two "cutting" frames 3 seconds apart: the single
surviving segment spans [0, 3]. -/
theorem createTimelineSegments_minDuration_witness :
    (({ startTime := 0, endTime := 3, mainAction := "cutting", ingredients := [],
        tools := [], description := "cutting (3 seconds)", keyFrames := [1, 2] } :
        TimelineSegment) ∈
      createTimelineSegments
        [{ frameNumber := 1, timestamp := 0, detectedIngredients := [], detectedTools := [],
           detectedActions :=
             [{ action := "cutting", confidence := 80,
                relatedIngredients := [], relatedTools := [] }],
           detectedText := [] },
         { frameNumber := 2, timestamp := 3, detectedIngredients := [], detectedTools := [],
           detectedActions :=
             [{ action := "cutting", confidence := 85,
                relatedIngredients := [], relatedTools := [] }],
           detectedText := [] }])
  ∧ (({ startTime := 0, endTime := 3, mainAction := "cutting", ingredients := [],
        tools := [], description := "cutting (3 seconds)", keyFrames := [1, 2] } :
        TimelineSegment).startTime ≤
      ({ startTime := 0, endTime := 3, mainAction := "cutting", ingredients := [],
         tools := [], description := "cutting (3 seconds)", keyFrames := [1, 2]} :
         TimelineSegment).endTime
     ∧ MIN_SEGMENT_DURATION ≤
      ({ startTime := 0, endTime := 3, mainAction := "cutting", ingredients := [],
         tools := [], description := "cutting (3 seconds)", keyFrames := [1, 2]} :
         TimelineSegment).endTime -
        ({ startTime := 0, endTime := 3, mainAction := "cutting", ingredients := [],
           tools := [], description := "cutting (3 seconds)", keyFrames := [1, 2]} :
           TimelineSegment).startTime) :=
  ⟨by decide, createTimelineSegments_minDuration
    [{ frameNumber := 1, timestamp := 0, detectedIngredients := [], detectedTools := [],
       detectedActions :=
         [{ action := "cutting", confidence := 80,
            relatedIngredients := [], relatedTools := [] }],
       detectedText := [] },
     { frameNumber := 2, timestamp := 3, detectedIngredients := [], detectedTools := [],
       detectedActions :=
         [{ action := "cutting", confidence := 85,
            relatedIngredients := [], relatedTools := [] }],
       detectedText := [] }]
    { startTime := 0, endTime := 3, mainAction := "cutting", ingredients := [],
      tools := [], description := "cutting (3 seconds)", keyFrames := [1, 2] }
    (by decide)⟩

/-- A found phase carries its phase label. -/
theorem findPhaseBy_phase {acts : List String} {lb d : String}
    {t : List TimelineSegment} {p : CookingPhase}
    (h : findPhaseBy acts lb d t = some p) : p.phase = lb := by
  unfold findPhaseBy at h
  cases hf : List.filter (segMatchesActions acts) t with
  | nil => rw [hf] at h; simp at h
  | cons a l =>
    rw [hf] at h
    simp only [Option.some.injEq] at h
    rw [← h]

/-- A phase is found exactly when some segment matches the keyword set. -/
theorem findPhaseBy_isSome_iff (acts : List String) (lb d : String)
    (t : List TimelineSegment) :
    (findPhaseBy acts lb d t).isSome = true ↔
      ∃ s ∈ t, segMatchesActions acts s = true := by
  unfold findPhaseBy
  cases hf : List.filter (segMatchesActions acts) t with
  | nil =>
    simp only [Option.isSome_none, Bool.false_eq_true, false_iff]
    rintro ⟨s, hs, hm⟩
    have hmem : s ∈ List.filter (segMatchesActions acts) t := List.mem_filter.mpr ⟨hs, hm⟩
    rw [hf] at hmem
    simp at hmem
  | cons a l =>
    simp only [Option.isSome_some, true_iff]
    have ha : a ∈ List.filter (segMatchesActions acts) t := by
      rw [hf]; exact List.mem_cons_self a l
    exact ⟨a, (List.mem_filter.mp ha).1, (List.mem_filter.mp ha).2⟩

/-- A found phase spans from the first matching segment's startTime to the
last matching segment's endTime. -/
theorem findPhaseBy_bounds {acts : List String} {lb d : String}
    {t : List TimelineSegment} {p : CookingPhase}
    (h : findPhaseBy acts lb d t = some p) :
    ∃ a b, (t.filter (segMatchesActions acts)).head? = some a ∧
      (t.filter (segMatchesActions acts)).getLast? = some b ∧
      p.startTime = a.startTime ∧ p.endTime = b.endTime := by
  unfold findPhaseBy at h
  cases hf : List.filter (segMatchesActions acts) t with
  | nil => rw [hf] at h; simp at h
  | cons a l =>
    rw [hf] at h
    simp only [Option.some.injEq] at h
    refine ⟨a, (a :: l).getLast (List.cons_ne_nil a l), ?_, ?_, ?_, ?_⟩
    · rfl
    · exact List.getLast?_eq_getLast_of_ne_nil (List.cons_ne_nil a l)
    · rw [← h]
    · rw [← h]

/-- Membership in the phase list means one of the three finders produced the
phase. -/
theorem mem_identifyCookingPhases {t : List TimelineSegment}
    {f : List FrameAnalysisResult} {p : CookingPhase} :
    p ∈ identifyCookingPhases t f ↔
      (findPreparationPhase t = some p ∨ findCookingPhase t = some p ∨
        findFinishingPhase t = some p) := by
  simp [identifyCookingPhases, Option.mem_toList, Option.mem_def]

/-- The labels of the emitted phases form a sublist of the fixed order
Preparation, Cooking, Finishing (hence at most one phase of each label). -/
theorem identifyCookingPhases_label_sublist (t : List TimelineSegment)
    (f : List FrameAnalysisResult) :
    ((identifyCookingPhases t f).map (fun p => p.phase)).Sublist
      ["Preparation", "Cooking", "Finishing"] := by
  rcases hp : findPreparationPhase t with _ | p1 <;>
    rcases hc : findCookingPhase t with _ | p2 <;>
    rcases hfi : findFinishingPhase t with _ | p3 <;>
    simp only [identifyCookingPhases, hp, hc, hfi, Option.toList_some, Option.toList_none,
      List.append_nil, List.nil_append, List.map_cons, List.map_nil, List.map_append,
      List.cons_append, List.singleton_append] <;>
    (try rw [findPhaseBy_phase hp]) <;> (try rw [findPhaseBy_phase hc]) <;>
    (try rw [findPhaseBy_phase hfi]) <;> decide

/-- C6: the Phase Identifier emits a phase label iff some segment's mainAction
matches that phase's keyword set; an emitted phase spans from the first
matching segment's startTime to the last matching segment's endTime; and the
output holds at most one phase of each label, in the fixed order Preparation,
Cooking, Finishing. -/
theorem identifyCookingPhases_spec (timeline : List TimelineSegment)
    (frames : List FrameAnalysisResult) :
    ((identifyCookingPhases timeline frames).map (fun p => p.phase)).Sublist
      ["Preparation", "Cooking", "Finishing"]
  ∧ ((∃ p ∈ identifyCookingPhases timeline frames, p.phase = "Preparation") ↔
      ∃ s ∈ timeline, segMatchesActions prepActions s = true)
  ∧ ((∃ p ∈ identifyCookingPhases timeline frames, p.phase = "Cooking") ↔
      ∃ s ∈ timeline, segMatchesActions cookingActions s = true)
  ∧ ((∃ p ∈ identifyCookingPhases timeline frames, p.phase = "Finishing") ↔
      ∃ s ∈ timeline, segMatchesActions finishingActions s = true)
  ∧ (∀ p ∈ identifyCookingPhases timeline frames, p.phase = "Preparation" →
      ∃ a b, (timeline.filter (segMatchesActions prepActions)).head? = some a ∧
        (timeline.filter (segMatchesActions prepActions)).getLast? = some b ∧
        p.startTime = a.startTime ∧ p.endTime = b.endTime)
  ∧ (∀ p ∈ identifyCookingPhases timeline frames, p.phase = "Cooking" →
      ∃ a b, (timeline.filter (segMatchesActions cookingActions)).head? = some a ∧
        (timeline.filter (segMatchesActions cookingActions)).getLast? = some b ∧
        p.startTime = a.startTime ∧ p.endTime = b.endTime)
  ∧ (∀ p ∈ identifyCookingPhases timeline frames, p.phase = "Finishing" →
      ∃ a b, (timeline.filter (segMatchesActions finishingActions)).head? = some a ∧
        (timeline.filter (segMatchesActions finishingActions)).getLast? = some b ∧
        p.startTime = a.startTime ∧ p.endTime = b.endTime) := by
  refine ⟨identifyCookingPhases_label_sublist timeline frames, ?_, ?_, ?_, ?_, ?_, ?_⟩
  · constructor
    · rintro ⟨p, hp, hphase⟩
      rcases mem_identifyCookingPhases.mp hp with h | h | h
      · exact (findPhaseBy_isSome_iff prepActions "Preparation"
          "Preparing ingredients by cutting, washing, and organizing" timeline).mp
          (by rw [show findPhaseBy prepActions "Preparation"
              "Preparing ingredients by cutting, washing, and organizing" timeline =
              some p from h]; rfl)
      · rw [findPhaseBy_phase h] at hphase; exact absurd hphase (by decide)
      · rw [findPhaseBy_phase h] at hphase; exact absurd hphase (by decide)
    · rintro ⟨s, hs, hm⟩
      have hsome := (findPhaseBy_isSome_iff prepActions "Preparation"
        "Preparing ingredients by cutting, washing, and organizing" timeline).mpr ⟨s, hs, hm⟩
      obtain ⟨p, hp⟩ := Option.isSome_iff_exists.mp hsome
      exact ⟨p, mem_identifyCookingPhases.mpr (Or.inl hp), findPhaseBy_phase hp⟩
  · constructor
    · rintro ⟨p, hp, hphase⟩
      rcases mem_identifyCookingPhases.mp hp with h | h | h
      · rw [findPhaseBy_phase h] at hphase; exact absurd hphase (by decide)
      · exact (findPhaseBy_isSome_iff cookingActions "Cooking" "Main cooking process"
          timeline).mp
          (by rw [show findPhaseBy cookingActions "Cooking" "Main cooking process" timeline =
              some p from h]; rfl)
      · rw [findPhaseBy_phase h] at hphase; exact absurd hphase (by decide)
    · rintro ⟨s, hs, hm⟩
      have hsome := (findPhaseBy_isSome_iff cookingActions "Cooking" "Main cooking process"
        timeline).mpr ⟨s, hs, hm⟩
      obtain ⟨p, hp⟩ := Option.isSome_iff_exists.mp hsome
      exact ⟨p, mem_identifyCookingPhases.mpr (Or.inr (Or.inl hp)), findPhaseBy_phase hp⟩
  · constructor
    · rintro ⟨p, hp, hphase⟩
      rcases mem_identifyCookingPhases.mp hp with h | h | h
      · rw [findPhaseBy_phase h] at hphase; exact absurd hphase (by decide)
      · rw [findPhaseBy_phase h] at hphase; exact absurd hphase (by decide)
      · exact (findPhaseBy_isSome_iff finishingActions "Finishing"
          "Final plating and presentation" timeline).mp
          (by rw [show findPhaseBy finishingActions "Finishing"
              "Final plating and presentation" timeline = some p from h]; rfl)
    · rintro ⟨s, hs, hm⟩
      have hsome := (findPhaseBy_isSome_iff finishingActions "Finishing"
        "Final plating and presentation" timeline).mpr ⟨s, hs, hm⟩
      obtain ⟨p, hp⟩ := Option.isSome_iff_exists.mp hsome
      exact ⟨p, mem_identifyCookingPhases.mpr (Or.inr (Or.inr hp)), findPhaseBy_phase hp⟩
  · intro p hp hphase
    rcases mem_identifyCookingPhases.mp hp with h | h | h
    · exact findPhaseBy_bounds h
    · rw [findPhaseBy_phase h] at hphase; exact absurd hphase (by decide)
    · rw [findPhaseBy_phase h] at hphase; exact absurd hphase (by decide)
  · intro p hp hphase
    rcases mem_identifyCookingPhases.mp hp with h | h | h
    · rw [findPhaseBy_phase h] at hphase; exact absurd hphase (by decide)
    · exact findPhaseBy_bounds h
    · rw [findPhaseBy_phase h] at hphase; exact absurd hphase (by decide)
  · intro p hp hphase
    rcases mem_identifyCookingPhases.mp hp with h | h | h
    · rw [findPhaseBy_phase h] at hphase; exact absurd hphase (by decide)
    · rw [findPhaseBy_phase h] at hphase; exact absurd hphase (by decide)
    · exact findPhaseBy_bounds h

/-- `mapUpdate` preserves any per-entry predicate that is preserved by the
update function on the entries present in the map. -/
theorem mapUpdate_forall {k : String}
    {g : IngredientInfo → IngredientInfo} {Q : String × IngredientInfo → Prop} :
    ∀ m : List (String × IngredientInfo), (∀ e ∈ m, Q e) → (∀ e ∈ m, Q (e.1, g e.2)) →
    ∀ e ∈ mapUpdate m k g, Q e := by
  intro m
  induction m with
  | nil => intro _ _ e he; simp [mapUpdate] at he
  | cons x rest ih =>
    intro hm hg e he
    obtain ⟨k0, v⟩ := x
    by_cases hk : (k0 == k) = true
    · simp only [mapUpdate, hk, if_true, List.mem_cons] at he
      rcases he with rfl | he
      · exact hg (k0, v) (List.mem_cons_self _ _)
      · exact hm e (List.mem_cons_of_mem _ he)
    · simp only [mapUpdate, hk, if_false, List.mem_cons] at he
      rcases List.mem_cons.mp he with h1 | h2
      · subst h1
        exact hm (k0, v) (List.mem_cons_self _ _)
      · exact ih (fun y hy => hm y (List.mem_cons_of_mem _ hy))
          (fun y hy => hg y (List.mem_cons_of_mem _ hy)) e h2

/-- One frame's fold preserves the aggregator invariant, with all updated
records stamped no later than the frame's timestamp. -/
theorem ingFold_inv (ts : ℚ) (ings : List Ingredient) :
    ∀ m : List (String × IngredientInfo),
      (∀ e ∈ m, (e.2.firstAppearance ≤ e.2.lastAppearance ∧ 1 ≤ e.2.frequency) ∧
        e.2.lastAppearance ≤ ts) →
      ∀ e ∈ ingFold ts ings m,
        (e.2.firstAppearance ≤ e.2.lastAppearance ∧ 1 ≤ e.2.frequency) ∧
          e.2.lastAppearance ≤ ts := by
  induction ings with
  | nil => intro m hm; simpa [ingFold] using hm
  | cons ing rest ih =>
    intro m hm
    by_cases hconf : ing.confidence < CONFIDENCE_THRESHOLD
    · rw [show ingFold ts (ing :: rest) m = ingFold ts rest m from by simp [ingFold, hconf]]
      exact ih m hm
    · by_cases hhas : (m.any fun e => e.1 == normalizeIngredientName ing.name) = true
      · rw [show ingFold ts (ing :: rest) m = ingFold ts rest
            (mapUpdate m (normalizeIngredientName ing.name)
              (fun info => { info with lastAppearance := ts, frequency := info.frequency + 1 }))
          from by simp [ingFold, hconf, hhas]]
        apply ih
        apply mapUpdate_forall m hm
        intro e he
        obtain ⟨⟨h1, h2⟩, h3⟩ := hm e he
        refine ⟨⟨?_, ?_⟩, ?_⟩
        · exact le_trans h1 h3
        · exact le_trans h2 (Nat.le_succ _)
        · exact le_refl ts
      · rw [show ingFold ts (ing :: rest) m = ingFold ts rest
            (m ++ [(normalizeIngredientName ing.name,
              { name := ing.name, firstAppearance := ts, lastAppearance := ts,
                frequency := 1, estimatedAmount := none })])
          from by simp [ingFold, hconf, hhas]]
        apply ih
        intro e he
        rcases List.mem_append.mp he with he | he
        · exact hm e he
        · rw [List.mem_singleton] at he
          subst he
          exact ⟨⟨le_refl ts, le_refl 1⟩, le_refl ts⟩

/-- The aggregator loop over timestamp-sorted frames preserves the invariant. -/
theorem aggLoop_inv :
    ∀ (frames : List FrameAnalysisResult) (m : List (String × IngredientInfo)),
      List.Pairwise frameLE frames →
      (∀ e ∈ m, (e.2.firstAppearance ≤ e.2.lastAppearance ∧ 1 ≤ e.2.frequency) ∧
        ∀ fr ∈ frames, e.2.lastAppearance ≤ fr.timestamp) →
      ∀ e ∈ aggLoop frames m,
        e.2.firstAppearance ≤ e.2.lastAppearance ∧ 1 ≤ e.2.frequency := by
  intro frames
  induction frames with
  | nil => intro m _ hm e he; exact (hm e he).1
  | cons f rest ih =>
    intro m hpair hm
    have hstep := ingFold_inv f.timestamp f.detectedIngredients m
      (fun e he => ⟨(hm e he).1, (hm e he).2 f (List.mem_cons_self f rest)⟩)
    apply ih (ingFold f.timestamp f.detectedIngredients m) (List.Pairwise.of_cons hpair)
    intro e he
    refine ⟨(hstep e he).1, ?_⟩
    intro fr hfr
    have hle : frameLE f fr := (List.pairwise_cons.mp hpair).1 fr hfr
    exact le_trans (hstep e he).2 hle

/-- C7: the 'tomatoes'/'tomato' pair collapses into the single normalized key
"tomato" with occurrence count 2; and on timestamp-sorted frames (as produced
by `integrate`), every aggregated record has
`firstAppearance ≤ lastAppearance` and `frequency ≥ 1`. -/
theorem aggregateIngredients_spec (frames : List FrameAnalysisResult)
    (h : List.Pairwise frameLE frames) (e : String × IngredientInfo)
    (he : e ∈ aggregateIngredients frames) :
    (e.2.firstAppearance ≤ e.2.lastAppearance ∧ 1 ≤ e.2.frequency)
  ∧ aggregateIngredients
      [{ frameNumber := 1, timestamp := 0,
         detectedIngredients :=
           [{ name := "tomatoes", confidence := 90, category := "vegetable" }],
         detectedTools := [], detectedActions := [], detectedText := [] },
       { frameNumber := 2, timestamp := 5,
         detectedIngredients :=
           [{ name := "tomato", confidence := 90, category := "vegetable" }],
         detectedTools := [], detectedActions := [], detectedText := [] }] =
      [("tomato",
        { name := "tomatoes", firstAppearance := 0, lastAppearance := 5,
          frequency := 2, estimatedAmount := some "small amount" })] := by
  constructor
  · simp only [aggregateIngredients, List.mem_map] at he
    obtain ⟨e0, he0, rfl⟩ := he
    exact aggLoop_inv frames [] h (by simp) e0 he0
  · decide

/-- Witness for C7 at the two-frame tomatoes/tomato input (the projections of
the concrete record reduce to the numeric facts stated here). -/
theorem aggregateIngredients_spec_witness :
    ((0 : ℚ) ≤ 5 ∧ 1 ≤ 2)
  ∧ aggregateIngredients
      [{ frameNumber := 1, timestamp := 0,
         detectedIngredients :=
           [{ name := "tomatoes", confidence := 90, category := "vegetable" }],
         detectedTools := [], detectedActions := [], detectedText := [] },
       { frameNumber := 2, timestamp := 5,
         detectedIngredients :=
           [{ name := "tomato", confidence := 90, category := "vegetable" }],
         detectedTools := [], detectedActions := [], detectedText := [] }] =
      [("tomato",
        { name := "tomatoes", firstAppearance := 0, lastAppearance := 5,
          frequency := 2, estimatedAmount := some "small amount" })] :=
  aggregateIngredients_spec
    [{ frameNumber := 1, timestamp := 0,
       detectedIngredients :=
         [{ name := "tomatoes", confidence := 90, category := "vegetable" }],
       detectedTools := [], detectedActions := [], detectedText := [] },
     { frameNumber := 2, timestamp := 5,
       detectedIngredients :=
         [{ name := "tomato", confidence := 90, category := "vegetable" }],
       detectedTools := [], detectedActions := [], detectedText := [] }]
    (by decide)
    ("tomato",
      { name := "tomatoes", firstAppearance := 0, lastAppearance := 5,
        frequency := 2, estimatedAmount := some "small amount" })
    (by decide)

section ScanDedup

variable {α β : Type} {accept : α → Bool} {key : α → String} {mk : α → β}

/-- A key is in the final seen set iff it was seen before or some accepted
item carries it. -/
theorem mem_scanDedup_seen :
    ∀ (xs : List α) (acc : List β) (seen : List String) (k : String),
      (k ∈ (scanDedup accept key mk xs acc seen).2 ↔
        k ∈ seen ∨ ∃ x ∈ xs, accept x = true ∧ key x = k) := by
  intro xs
  induction xs with
  | nil => intro acc seen k; simp [scanDedup]
  | cons x rest ih =>
    intro acc seen k
    by_cases hx : accept x = true
    · by_cases hseen : key x ∈ seen
      · rw [show scanDedup accept key mk (x :: rest) acc seen =
            scanDedup accept key mk rest acc seen from by simp [scanDedup, hx, hseen]]
        rw [ih]
        constructor
        · rintro (h | ⟨y, hy, h1, h2⟩)
          · exact Or.inl h
          · exact Or.inr ⟨y, List.mem_cons_of_mem _ hy, h1, h2⟩
        · rintro (h | ⟨y, hy, h1, h2⟩)
          · exact Or.inl h
          · rcases List.mem_cons.mp hy with rfl | hy
            · exact Or.inl (h2 ▸ hseen)
            · exact Or.inr ⟨y, hy, h1, h2⟩
      · rw [show scanDedup accept key mk (x :: rest) acc seen =
            scanDedup accept key mk rest (acc ++ [mk x]) (seen ++ [key x]) from by
          simp [scanDedup, hx, hseen]]
        rw [ih]
        simp only [List.mem_append, List.mem_singleton]
        constructor
        · rintro ((h | h) | ⟨y, hy, h1, h2⟩)
          · exact Or.inl h
          · exact Or.inr ⟨x, List.mem_cons_self _ _, hx, h.symm⟩
          · exact Or.inr ⟨y, List.mem_cons_of_mem _ hy, h1, h2⟩
        · rintro (h | ⟨y, hy, h1, h2⟩)
          · exact Or.inl (Or.inl h)
          · rcases List.mem_cons.mp hy with rfl | hy
            · exact Or.inl (Or.inr h2.symm)
            · exact Or.inr ⟨y, hy, h1, h2⟩
    · rw [show scanDedup accept key mk (x :: rest) acc seen =
          scanDedup accept key mk rest acc seen from by simp [scanDedup, hx]]
      rw [ih]
      constructor
      · rintro (h | ⟨y, hy, h1, h2⟩)
        · exact Or.inl h
        · exact Or.inr ⟨y, List.mem_cons_of_mem _ hy, h1, h2⟩
      · rintro (h | ⟨y, hy, h1, h2⟩)
        · exact Or.inl h
        · rcases List.mem_cons.mp hy with rfl | hy
          · exact absurd h1 (by simp [hx])
          · exact Or.inr ⟨y, hy, h1, h2⟩

/-- The seen set stays duplicate-free. -/
theorem scanDedup_seen_nodup :
    ∀ (xs : List α) (acc : List β) (seen : List String),
      seen.Nodup → (scanDedup accept key mk xs acc seen).2.Nodup := by
  intro xs
  induction xs with
  | nil => intro acc seen h; simpa [scanDedup] using h
  | cons x rest ih =>
    intro acc seen h
    by_cases hx : accept x = true
    · by_cases hseen : key x ∈ seen
      · rw [show scanDedup accept key mk (x :: rest) acc seen =
            scanDedup accept key mk rest acc seen from by simp [scanDedup, hx, hseen]]
        exact ih acc seen h
      · rw [show scanDedup accept key mk (x :: rest) acc seen =
            scanDedup accept key mk rest (acc ++ [mk x]) (seen ++ [key x]) from by
          simp [scanDedup, hx, hseen]]
        apply ih
        rw [List.nodup_append]
        exact ⟨h, List.nodup_singleton _, by simpa using hseen⟩
    · rw [show scanDedup accept key mk (x :: rest) acc seen =
          scanDedup accept key mk rest acc seen from by simp [scanDedup, hx]]
      exact ih acc seen h

/-- The number of pushed entries equals the number of newly seen keys. -/
theorem scanDedup_length :
    ∀ (xs : List α) (acc : List β) (seen : List String),
      (scanDedup accept key mk xs acc seen).1.length + seen.length =
        acc.length + (scanDedup accept key mk xs acc seen).2.length := by
  intro xs
  induction xs with
  | nil => intro acc seen; simp [scanDedup, Nat.add_comm]
  | cons x rest ih =>
    intro acc seen
    by_cases hx : accept x = true
    · by_cases hseen : key x ∈ seen
      · rw [show scanDedup accept key mk (x :: rest) acc seen =
            scanDedup accept key mk rest acc seen from by simp [scanDedup, hx, hseen]]
        exact ih acc seen
      · rw [show scanDedup accept key mk (x :: rest) acc seen =
            scanDedup accept key mk rest (acc ++ [mk x]) (seen ++ [key x]) from by
          simp [scanDedup, hx, hseen]]
        have := ih (acc ++ [mk x]) (seen ++ [key x])
        simp only [List.length_append, List.length_singleton] at this ⊢
        omega
    · rw [show scanDedup accept key mk (x :: rest) acc seen =
          scanDedup accept key mk rest acc seen from by simp [scanDedup, hx]]
      exact ih acc seen

/-- Every pushed entry is an old accumulator entry or `mk` of an accepted
item. -/
theorem mem_scanDedup_acc :
    ∀ (xs : List α) (acc : List β) (seen : List String) (y : β),
      y ∈ (scanDedup accept key mk xs acc seen).1 →
      y ∈ acc ∨ ∃ x ∈ xs, accept x = true ∧ y = mk x := by
  intro xs
  induction xs with
  | nil => intro acc seen y hy; exact Or.inl (by simpa [scanDedup] using hy)
  | cons x rest ih =>
    intro acc seen y hy
    by_cases hx : accept x = true
    · by_cases hseen : key x ∈ seen
      · rw [show scanDedup accept key mk (x :: rest) acc seen =
            scanDedup accept key mk rest acc seen from by simp [scanDedup, hx, hseen]] at hy
        rcases ih acc seen y hy with h | ⟨z, hz, h1, h2⟩
        · exact Or.inl h
        · exact Or.inr ⟨z, List.mem_cons_of_mem _ hz, h1, h2⟩
      · rw [show scanDedup accept key mk (x :: rest) acc seen =
            scanDedup accept key mk rest (acc ++ [mk x]) (seen ++ [key x]) from by
          simp [scanDedup, hx, hseen]] at hy
        rcases ih (acc ++ [mk x]) (seen ++ [key x]) y hy with h | ⟨z, hz, h1, h2⟩
        · rcases List.mem_append.mp h with h | h
          · exact Or.inl h
          · exact Or.inr ⟨x, List.mem_cons_self _ _, hx, (List.mem_singleton.mp h)⟩
        · exact Or.inr ⟨z, List.mem_cons_of_mem _ hz, h1, h2⟩
    · rw [show scanDedup accept key mk (x :: rest) acc seen =
          scanDedup accept key mk rest acc seen from by simp [scanDedup, hx]] at hy
      rcases ih acc seen y hy with h | ⟨z, hz, h1, h2⟩
      · exact Or.inl h
      · exact Or.inr ⟨z, List.mem_cons_of_mem _ hz, h1, h2⟩

/-- The accumulator is preserved (as a prefix) by the scan. -/
theorem scanDedup_acc_sub :
    ∀ (xs : List α) (acc : List β) (seen : List String) (y : β),
      y ∈ acc → y ∈ (scanDedup accept key mk xs acc seen).1 := by
  intro xs
  induction xs with
  | nil => intro acc seen y hy; simpa [scanDedup] using hy
  | cons x rest ih =>
    intro acc seen y hy
    by_cases hx : accept x = true
    · by_cases hseen : key x ∈ seen
      · rw [show scanDedup accept key mk (x :: rest) acc seen =
            scanDedup accept key mk rest acc seen from by simp [scanDedup, hx, hseen]]
        exact ih acc seen y hy
      · rw [show scanDedup accept key mk (x :: rest) acc seen =
            scanDedup accept key mk rest (acc ++ [mk x]) (seen ++ [key x]) from by
          simp [scanDedup, hx, hseen]]
        exact ih _ _ y (List.mem_append_left _ hy)
    · rw [show scanDedup accept key mk (x :: rest) acc seen =
          scanDedup accept key mk rest acc seen from by simp [scanDedup, hx]]
      exact ih acc seen y hy

/-- Every newly seen key is carried by some pushed entry (provided `mk`
preserves keys via `keyOf`). -/
theorem scanDedup_key_covered {keyOf : β → String} (hkey : ∀ x, keyOf (mk x) = key x) :
    ∀ (xs : List α) (acc : List β) (seen : List String) (k : String),
      k ∈ (scanDedup accept key mk xs acc seen).2 →
      k ∈ seen ∨ ∃ y ∈ (scanDedup accept key mk xs acc seen).1, keyOf y = k := by
  intro xs
  induction xs with
  | nil => intro acc seen k hk; exact Or.inl (by simpa [scanDedup] using hk)
  | cons x rest ih =>
    intro acc seen k hk
    by_cases hx : accept x = true
    · by_cases hseen : key x ∈ seen
      · rw [show scanDedup accept key mk (x :: rest) acc seen =
            scanDedup accept key mk rest acc seen from by simp [scanDedup, hx, hseen]] at hk ⊢
        exact ih acc seen k hk
      · rw [show scanDedup accept key mk (x :: rest) acc seen =
            scanDedup accept key mk rest (acc ++ [mk x]) (seen ++ [key x]) from by
          simp [scanDedup, hx, hseen]] at hk ⊢
        rcases ih _ _ k hk with h | h
        · rcases List.mem_append.mp h with h | h
          · exact Or.inl h
          · refine Or.inr ⟨mk x, ?_, ?_⟩
            · exact scanDedup_acc_sub rest _ _ (mk x) (List.mem_append_right _ (by simp))
            · rw [hkey, List.mem_singleton.mp h]
        · exact Or.inr h
    · rw [show scanDedup accept key mk (x :: rest) acc seen =
          scanDedup accept key mk rest acc seen from by simp [scanDedup, hx]] at hk ⊢
      exact ih acc seen k hk

end ScanDedup

/-- Duplicate-free lists compare in length along subset inclusion. -/
theorem nodup_subset_length {l1 l2 : List String} (h1 : l1.Nodup) (h2 : l2.Nodup)
    (hsub : ∀ x ∈ l1, x ∈ l2) : l1.length ≤ l2.length := by
  rw [← List.toFinset_card_of_nodup h1, ← List.toFinset_card_of_nodup h2]
  exact Finset.card_le_card (fun x hx => List.mem_toFinset.mpr (hsub x (List.mem_toFinset.mp hx)))

theorem extractIngredients_false_eq (labels : List RekLabel)
    (customLabels : List RekCustomLabel) :
    extractIngredients labels customLabels false =
      List.insertionSort ingConfDesc (ingRun labels customLabels 70).1 := rfl

theorem extractIngredients_true_eq (labels : List RekLabel)
    (customLabels : List RekCustomLabel) :
    extractIngredients labels customLabels true =
      List.insertionSort ingConfDesc ((ingRun labels customLabels 55).1 ++
        detectAdditionalFoodItems labels (ingRun labels customLabels 55).2) := rfl

theorem extractTools_false_eq (labels : List RekLabel)
    (customLabels : List RekCustomLabel) :
    extractTools labels customLabels false =
      List.insertionSort toolConfDesc (toolRun labels 70).1 := rfl

theorem extractTools_true_eq (labels : List RekLabel)
    (customLabels : List RekCustomLabel) :
    extractTools labels customLabels true =
      List.insertionSort toolConfDesc ((toolRun labels 55).1 ++
        detectAdditionalCookingTools labels (toolRun labels 55).2) := rfl

theorem ingAccept_mono {l : RekLabel} (h : ingAccept 70 l = true) :
    ingAccept 55 l = true := by
  simp only [ingAccept, Bool.and_eq_true, decide_eq_true_eq] at h ⊢
  exact ⟨by linarith [h.1], h.2⟩

theorem cusAccept_mono {c : RekCustomLabel} (h : cusAccept 70 c = true) :
    cusAccept 55 c = true := by
  simp only [cusAccept, decide_eq_true_eq] at h ⊢
  linarith

theorem toolAccept_mono {l : RekLabel} (h : toolAccept 70 l = true) :
    toolAccept 55 l = true := by
  simp only [toolAccept, Bool.and_eq_true, decide_eq_true_eq] at h ⊢
  exact ⟨by linarith [h.1], h.2⟩

theorem actAccept_mono {l : RekLabel} (h : actAccept 70 l = true) :
    actAccept 50 l = true := by
  simp only [actAccept, Bool.and_eq_true, decide_eq_true_eq] at h ⊢
  exact ⟨by linarith [h.1], h.2⟩

/-- Characterization of the keys seen by the two ingredient passes. -/
theorem mem_ingRun_seen (labels : List RekLabel) (customLabels : List RekCustomLabel)
    (thr : ℚ) (k : String) :
    k ∈ (ingRun labels customLabels thr).2 ↔
      (∃ l ∈ labels, ingAccept thr l = true ∧ labelName l = k) ∨
      (∃ c ∈ customLabels, cusAccept thr c = true ∧ cusName c = k) := by
  unfold ingRun
  rw [mem_scanDedup_seen, mem_scanDedup_seen]
  simp only [List.not_mem_nil, false_or]

theorem ingRun_seen_nodup (labels : List RekLabel) (customLabels : List RekCustomLabel)
    (thr : ℚ) : (ingRun labels customLabels thr).2.Nodup := by
  unfold ingRun
  exact scanDedup_seen_nodup customLabels _ _
    (scanDedup_seen_nodup labels [] [] List.nodup_nil)

theorem ingRun_length (labels : List RekLabel) (customLabels : List RekCustomLabel)
    (thr : ℚ) : (ingRun labels customLabels thr).1.length =
      (ingRun labels customLabels thr).2.length := by
  have h1 := @scanDedup_length RekLabel Ingredient (ingAccept thr) labelName
    mkIngFromLabel labels [] []
  have h2 := @scanDedup_length RekCustomLabel Ingredient (cusAccept thr) cusName
    mkIngFromCustom customLabels
    (scanDedup (ingAccept thr) labelName mkIngFromLabel labels [] []).1
    (scanDedup (ingAccept thr) labelName mkIngFromLabel labels [] []).2
  unfold ingRun
  simp only [List.length_nil] at h1 h2
  omega

/-- C8, ingredients: high-density (short-video) mode detects at least as many
ingredients. -/
theorem extractIngredients_len_mono (labels : List RekLabel)
    (customLabels : List RekCustomLabel) :
    (extractIngredients labels customLabels false).length ≤
      (extractIngredients labels customLabels true).length := by
  rw [extractIngredients_false_eq, extractIngredients_true_eq,
    List.length_insertionSort, List.length_insertionSort, List.length_append]
  have hsub : ∀ k ∈ (ingRun labels customLabels 70).2, k ∈ (ingRun labels customLabels 55).2 := by
    intro k hk
    rw [mem_ingRun_seen] at hk ⊢
    rcases hk with ⟨l, hl, h1, h2⟩ | ⟨c, hc, h1, h2⟩
    · exact Or.inl ⟨l, hl, ingAccept_mono h1, h2⟩
    · exact Or.inr ⟨c, hc, cusAccept_mono h1, h2⟩
  have hle := nodup_subset_length (ingRun_seen_nodup labels customLabels 70)
    (ingRun_seen_nodup labels customLabels 55) hsub
  have e70 := ingRun_length labels customLabels 70
  have e55 := ingRun_length labels customLabels 55
  omega

theorem mem_toolRun_seen (labels : List RekLabel) (thr : ℚ) (k : String) :
    k ∈ (toolRun labels thr).2 ↔
      ∃ l ∈ labels, toolAccept thr l = true ∧ labelName l = k := by
  unfold toolRun
  rw [mem_scanDedup_seen]
  simp

theorem toolRun_seen_nodup (labels : List RekLabel) (thr : ℚ) :
    (toolRun labels thr).2.Nodup :=
  scanDedup_seen_nodup labels [] [] List.nodup_nil

theorem toolRun_length (labels : List RekLabel) (thr : ℚ) :
    (toolRun labels thr).1.length = (toolRun labels thr).2.length := by
  have h1 := @scanDedup_length RekLabel Tool (toolAccept thr) labelName
    mkToolFromLabel labels [] []
  unfold toolRun
  simp only [List.length_nil] at h1
  omega

/-- C8, tools: high-density (short-video) mode detects at least as many
tools. -/
theorem extractTools_len_mono (labels : List RekLabel)
    (customLabels : List RekCustomLabel) :
    (extractTools labels customLabels false).length ≤
      (extractTools labels customLabels true).length := by
  rw [extractTools_false_eq, extractTools_true_eq,
    List.length_insertionSort, List.length_insertionSort, List.length_append]
  have hsub : ∀ k ∈ (toolRun labels 70).2, k ∈ (toolRun labels 55).2 := by
    intro k hk
    rw [mem_toolRun_seen] at hk ⊢
    obtain ⟨l, hl, h1, h2⟩ := hk
    exact ⟨l, hl, toolAccept_mono h1, h2⟩
  have hle := nodup_subset_length (toolRun_seen_nodup labels 70)
    (toolRun_seen_nodup labels 55) hsub
  have e70 := toolRun_length labels 70
  have e55 := toolRun_length labels 55
  omega

/-- Every entry produced by the two ingredient passes categorizes its own
lowercased name. -/
theorem ingRun_entry_shape (labels : List RekLabel) (customLabels : List RekCustomLabel)
    (thr : ℚ) : ∀ y ∈ (ingRun labels customLabels thr).1,
      y.category = categorizeIngredient (strToLower y.name) := by
  intro y hy
  unfold ingRun at hy
  rcases mem_scanDedup_acc customLabels _ _ y hy with h | ⟨c, _, _, rfl⟩
  · rcases mem_scanDedup_acc labels [] [] y h with h0 | ⟨l, _, _, rfl⟩
    · simp at h0
    · rfl
  · rfl

/-- Every key in the final ingredient seen set is realized by a pushed
entry. -/
theorem ingRun_key_realized (labels : List RekLabel) (customLabels : List RekCustomLabel)
    (thr : ℚ) : ∀ k ∈ (ingRun labels customLabels thr).2,
      ∃ y ∈ (ingRun labels customLabels thr).1, strToLower y.name = k := by
  intro k hk
  unfold ingRun at hk ⊢
  rcases @scanDedup_key_covered RekCustomLabel Ingredient (cusAccept thr) cusName
    mkIngFromCustom (fun (i : Ingredient) => strToLower i.name)
    (fun c => rfl) customLabels _ _ k hk with h | h
  · rcases @scanDedup_key_covered RekLabel Ingredient (ingAccept thr) labelName
      mkIngFromLabel (fun (i : Ingredient) => strToLower i.name)
      (fun l => rfl) labels [] [] k h with h0 | ⟨y, hy, hky⟩
    · simp at h0
    · exact ⟨y, scanDedup_acc_sub customLabels _ _ y hy, hky⟩
  · exact h

/-- Every key seen at threshold 70 is seen at threshold 55. -/
theorem ingRun_seen_mono (labels : List RekLabel) (customLabels : List RekCustomLabel)
    {k : String} (hk : k ∈ (ingRun labels customLabels 70).2) :
    k ∈ (ingRun labels customLabels 55).2 := by
  rw [mem_ingRun_seen] at hk ⊢
  rcases hk with ⟨l, hl, h1, h2⟩ | ⟨c, hc, h1, h2⟩
  · exact Or.inl ⟨l, hl, ingAccept_mono h1, h2⟩
  · exact Or.inr ⟨c, hc, cusAccept_mono h1, h2⟩

/-- For every normal-mode ingredient there is a short-mode ingredient with
the same lowercased name and the same category. -/
theorem ing_entry_mono (labels : List RekLabel) (customLabels : List RekCustomLabel) :
    ∀ i ∈ extractIngredients labels customLabels false,
      ∃ y ∈ extractIngredients labels customLabels true,
        strToLower y.name = strToLower i.name ∧ y.category = i.category := by
  intro i hi
  rw [extractIngredients_false_eq, List.mem_insertionSort] at hi
  have hshape70 := ingRun_entry_shape labels customLabels 70 i hi
  have hseen70 : strToLower i.name ∈ (ingRun labels customLabels 70).2 := by
    rw [mem_ingRun_seen]
    unfold ingRun at hi
    rcases mem_scanDedup_acc customLabels _ _ i hi with h | ⟨c, hc, hacc, rfl⟩
    · rcases mem_scanDedup_acc labels [] [] i h with h0 | ⟨l, hl, hacc, rfl⟩
      · simp at h0
      · exact Or.inl ⟨l, hl, hacc, rfl⟩
    · exact Or.inr ⟨c, hc, hacc, rfl⟩
  obtain ⟨y, hy, hkey⟩ := ingRun_key_realized labels customLabels 55 _
    (ingRun_seen_mono labels customLabels hseen70)
  refine ⟨y, ?_, hkey, ?_⟩
  · rw [extractIngredients_true_eq, List.mem_insertionSort]
    exact List.mem_append_left _ hy
  · calc y.category = categorizeIngredient (strToLower y.name) :=
        ingRun_entry_shape labels customLabels 55 y hy
      _ = categorizeIngredient (strToLower i.name) := by rw [hkey]
      _ = i.category := hshape70.symm

/-- Every key in the final tool seen set is realized by a pushed entry. -/
theorem toolRun_key_realized (labels : List RekLabel) (thr : ℚ) :
    ∀ k ∈ (toolRun labels thr).2,
      ∃ y ∈ (toolRun labels thr).1, strToLower y.name = k := by
  intro k hk
  unfold toolRun at hk ⊢
  rcases @scanDedup_key_covered RekLabel Tool (toolAccept thr) labelName
    mkToolFromLabel (fun (t : Tool) => strToLower t.name)
    (fun l => rfl) labels [] [] k hk with h0 | h
  · simp at h0
  · exact h

/-- For every normal-mode tool there is a short-mode tool with the same
lowercased name. -/
theorem tools_entry_mono (labels : List RekLabel) (customLabels : List RekCustomLabel) :
    ∀ t ∈ extractTools labels customLabels false,
      ∃ y ∈ extractTools labels customLabels true,
        strToLower y.name = strToLower t.name := by
  intro t ht
  rw [extractTools_false_eq, List.mem_insertionSort] at ht
  have hseen70 : strToLower t.name ∈ (toolRun labels 70).2 := by
    rw [mem_toolRun_seen]
    unfold toolRun at ht
    rcases mem_scanDedup_acc labels [] [] t ht with h0 | ⟨l, hl, hacc, rfl⟩
    · simp at h0
    · exact ⟨l, hl, hacc, rfl⟩
  have hseen55 : strToLower t.name ∈ (toolRun labels 55).2 := by
    rw [mem_toolRun_seen] at hseen70 ⊢
    obtain ⟨l, hl, h1, h2⟩ := hseen70
    exact ⟨l, hl, toolAccept_mono h1, h2⟩
  obtain ⟨y, hy, hkey⟩ := toolRun_key_realized labels 55 _ hseen55
  refine ⟨y, ?_, hkey⟩
  rw [extractTools_true_eq, List.mem_insertionSort]
  exact List.mem_append_left _ hy

/-- A name-based `any` test over the tools transfers from normal to
short-video mode. -/
theorem tools_any_mono (labels : List RekLabel) (customLabels : List RekCustomLabel)
    (p : String → Bool)
    (h : (extractTools labels customLabels false).any
      (fun t => p (strToLower t.name)) = true) :
    (extractTools labels customLabels true).any (fun t => p (strToLower t.name)) = true := by
  rw [List.any_eq_true] at h ⊢
  obtain ⟨t, ht, hp⟩ := h
  obtain ⟨y, hy, hkey⟩ := tools_entry_mono labels customLabels t ht
  exact ⟨y, hy, by rw [hkey]; exact hp⟩

/-- A category-based `any` test over the ingredients transfers from normal to
short-video mode. -/
theorem ing_any_cat_mono (labels : List RekLabel) (customLabels : List RekCustomLabel)
    (p : String → Bool)
    (h : (extractIngredients labels customLabels false).any
      (fun i => p i.category) = true) :
    (extractIngredients labels customLabels true).any (fun i => p i.category) = true := by
  rw [List.any_eq_true] at h ⊢
  obtain ⟨i, hi, hp⟩ := h
  obtain ⟨y, hy, _, hcat⟩ := ing_entry_mono labels customLabels i hi
  exact ⟨y, hy, by rw [hcat]; exact hp⟩

/-- One conditional singleton is no longer than another whose condition is
implied. -/
theorem ite_singleton_len_le {c1 c2 : Prop} [Decidable c1] [Decidable c2]
    (x1 x2 : CookingAction) (himp : c1 → c2) :
    (if c1 then [x1] else []).length ≤ (if c2 then [x2] else []).length := by
  by_cases h : c1
  · simp [h, himp h]
  · simp [h]

/-- C8, context inference: short-video mode fires at least as many
co-occurrence rules. -/
theorem inferActionsFromContext_len_mono (labels : List RekLabel)
    (customLabels : List RekCustomLabel) :
    (inferActionsFromContext (extractIngredients labels customLabels false)
      (extractTools labels customLabels false) false).length ≤
    (inferActionsFromContext (extractIngredients labels customLabels true)
      (extractTools labels customLabels true) true).length := by
  have h1 : ((extractTools labels customLabels false).any
        (fun t => strContains (strToLower t.name) "knife") &&
      (extractIngredients labels customLabels false).any
        (fun i => i.category == "vegetable")) = true →
      ((extractTools labels customLabels true).any
        (fun t => strContains (strToLower t.name) "knife") &&
      (extractIngredients labels customLabels true).any
        (fun i => i.category == "vegetable")) = true := by
    intro h
    rw [Bool.and_eq_true] at h ⊢
    exact ⟨tools_any_mono labels customLabels (fun s => strContains s "knife") h.1,
      ing_any_cat_mono labels customLabels (fun c => c == "vegetable") h.2⟩
  have h2 : ((extractTools labels customLabels false).any
        (fun t => strContains (strToLower t.name) "pan") &&
      (extractIngredients labels customLabels false).any
        (fun i => i.category == "meat" || i.category == "vegetable")) = true →
      ((extractTools labels customLabels true).any
        (fun t => strContains (strToLower t.name) "pan") &&
      (extractIngredients labels customLabels true).any
        (fun i => i.category == "meat" || i.category == "vegetable")) = true := by
    intro h
    rw [Bool.and_eq_true] at h ⊢
    exact ⟨tools_any_mono labels customLabels (fun s => strContains s "pan") h.1,
      ing_any_cat_mono labels customLabels
        (fun c => c == "meat" || c == "vegetable") h.2⟩
  have h3 : ((extractTools labels customLabels false).any
        (fun t => strContains (strToLower t.name) "bowl") &&
      decide (2 ≤ (extractIngredients labels customLabels false).length)) = true →
      ((extractTools labels customLabels true).any
        (fun t => strContains (strToLower t.name) "bowl") &&
      decide (2 ≤ (extractIngredients labels customLabels true).length)) = true := by
    intro h
    rw [Bool.and_eq_true, decide_eq_true_eq] at h ⊢
    exact ⟨tools_any_mono labels customLabels (fun s => strContains s "bowl") h.1,
      le_trans h.2 (extractIngredients_len_mono labels customLabels)⟩
  simp only [inferActionsFromContext, Bool.false_eq_true, if_false, eq_self_iff_true,
    if_true, List.append_nil, List.length_append]
  exact Nat.le_trans
    (Nat.add_le_add (Nat.add_le_add (ite_singleton_len_le _ _ h1)
      (ite_singleton_len_le _ _ h2)) (ite_singleton_len_le _ _ h3))
    (Nat.le_add_right _ _)

/-- C8, actions: short-video mode produces at least as many actions. -/
theorem inferCookingActions_len_mono (labels : List RekLabel)
    (customLabels : List RekCustomLabel) :
    (inferCookingActions labels (extractIngredients labels customLabels false)
      (extractTools labels customLabels false) false).length ≤
    (inferCookingActions labels (extractIngredients labels customLabels true)
      (extractTools labels customLabels true) true).length := by
  have hdir : ((labels.filter (actAccept 70)).map
        (mkActFromLabel (extractIngredients labels customLabels false)
          (extractTools labels customLabels false))).length ≤
      ((labels.filter (actAccept 50)).map
        (mkActFromLabel (extractIngredients labels customLabels true)
          (extractTools labels customLabels true))).length := by
    rw [List.length_map, List.length_map]
    exact (List.monotone_filter_right labels (fun a ha => actAccept_mono ha)).length_le
  have hctx := inferActionsFromContext_len_mono labels customLabels
  have hing := extractIngredients_len_mono labels customLabels
  have htool := extractTools_len_mono labels customLabels
  simp only [inferCookingActions, Bool.false_eq_true, if_false, eq_self_iff_true,
    if_true, List.length_insertionSort]
  by_cases hcond : 0 < (extractIngredients labels customLabels false).length ∧
      0 < (extractTools labels customLabels false).length
  · have hcondS : 0 < (extractIngredients labels customLabels true).length ∧
        0 < (extractTools labels customLabels true).length :=
      ⟨lt_of_lt_of_le hcond.1 hing, lt_of_lt_of_le hcond.2 htool⟩
    rw [if_pos hcond, if_pos hcondS]
    simp only [List.length_append]
    omega
  · rw [if_neg hcond]
    by_cases hcondS : 0 < (extractIngredients labels customLabels true).length ∧
        0 < (extractTools labels customLabels true).length
    · rw [if_pos hcondS]
      simp only [List.length_append]
      omega
    · rw [if_neg hcondS]
      simp only [List.length_append]
      omega

/-- C8: for a fixed set of raw frame labels, high-density (short-video) mode
produces at least as many detected ingredients, tools and actions as normal
mode — lowering the thresholds and enabling the looser keyword lists is
monotone in recall. -/
theorem extract_highDensity_monotone (labels : List RekLabel)
    (customLabels : List RekCustomLabel) :
    (extractIngredients labels customLabels false).length ≤
      (extractIngredients labels customLabels true).length
  ∧ (extractTools labels customLabels false).length ≤
      (extractTools labels customLabels true).length
  ∧ (inferCookingActions labels (extractIngredients labels customLabels false)
      (extractTools labels customLabels false) false).length ≤
    (inferCookingActions labels (extractIngredients labels customLabels true)
      (extractTools labels customLabels true) true).length :=
  ⟨extractIngredients_len_mono labels customLabels,
   extractTools_len_mono labels customLabels,
   inferCookingActions_len_mono labels customLabels⟩

end CookTube
